import Mathlib

/-!
# gojq `_tools/gen_builtin.go`: a shallow embedding and its verified properties

The generator parses the builtin definitions, asks `astgen.Build` for a Go AST
of the resulting map, and prints it as the body of an `init` function.  The
parts of `go/ast` the generator inspects are modelled as inductive types (trees without
nil pointers, as `go/ast` documents them); the
collaborators that are not part of the repository (`gojq.Parse`,
`astgen.Build`, `printer.Fprint`, the `%#v` rendering of `fmt`, the operating
system) are parameters.  A Go run-time panic is an explicit outcome.

Text is a list of characters.  Only ASCII characters take part in the regular
expression of the generator, and its word boundary is an ASCII one, so a
character outside ASCII behaves like any other non-word character.
-/

namespace GenBuiltin

/-! ## The fragment of `go/ast` seen by the generator -/

/-- The tokens an assignment statement can carry; the generator only builds `DEFINE` (`:=`). -/
inductive Token where
  | DEFINE
  | ASSIGN
  | otherTok (code : Nat)

mutual
/-- Go expressions (`ast.Expr`); node kinds the generator never inspects are `otherExpr`. -/
inductive Expr : Type where
  | ident (name : String)
  | basicLit (kind : Nat) (value : String)
  | parenExpr (X : Expr)
  | funcLit (type : FuncType) (body : BlockStmt)
  | callExpr (Fun : Expr) (Args : List Expr)
  | compositeLit (type : Option Expr) (Elts : List Expr)
  | keyValueExpr (key : Expr) (value : Expr)
  | otherExpr (kind : String) (children : List Expr)
/-- Go statements (`ast.Stmt`). -/
inductive Stmt : Type where
  | returnStmt (Results : List Expr)
  | assignStmt (Lhs : List Expr) (Tok : Token) (Rhs : List Expr)
  | exprStmt (X : Expr)
  | otherStmt (kind : String)
/-- A parameter field `a, b T` (`ast.Field`): the declared names and the type. -/
inductive Field : Type where
  | mk (Names : List String) (type : Expr)
/-- The signature of a function literal (`ast.FuncType`, with `Params.List` inlined). -/
inductive FuncType : Type where
  | mk (Params : List Field) (Results : List Field)
/-- A braced statement list (`ast.BlockStmt`). -/
inductive BlockStmt : Type where
  | mk (List : List Stmt)
end

/-- The names of a parameter field, `param.Names`. -/
def Field.Names : Field → List String
  | .mk names _ => names

/-- The parameter fields of a signature, `fn.Type.Params.List`. -/
def FuncType.Params : FuncType → List Field
  | .mk params _ => params

/-- The statements of a block, `fn.Body.List`. -/
def BlockStmt.List : BlockStmt → List Stmt
  | .mk l => l

/-- A call expression as a record (`*ast.CallExpr`): callee and arguments. -/
structure CallExpr where
  Fun : Expr
  Args : List Expr

/-- A composite literal as a record (`*ast.CompositeLit`): the literal type (possibly nil)
and the entries. -/
structure CompositeLit where
  type : Option Expr
  Elts : List Expr

/-- Any AST node (`ast.Node`), as carried by `unexpectedAstError` and handed to the printer;
`nilNode` is the nil interface value. -/
inductive Node where
  | expr (e : Expr)
  | stmt (s : Stmt)
  | block (b : BlockStmt)
  | otherNode (kind : String)
  | nilNode

/-- The call expression seen as a node. -/
def CallExpr.toNode (f : CallExpr) : Node := .expr (.callExpr f.Fun f.Args)

/-- A possibly nil expression seen as a node. -/
def exprNode : Option Expr → Node
  | some e => .expr e
  | none => .nilNode

/-! ## Errors and panics -/

/-- Go `error` values that `run` can return: the generator's own `unexpectedAstError`
(with the node `X` it carries), or an error made by a collaborator (parser, builder,
printer, operating system), identified by its message. -/
inductive GoError where
  | unexpectedAstError (X : Node)
  | foreign (msg : String)

/-- Run-time panics of the Go code. -/
inductive Panic where
  | typeAssertion
  | indexOutOfRange (index : Nat) (len : Nat)
  | nilDereference

/-- The outcome of running Go code that can panic. -/
inductive Exec (α : Type) where
  | ret (a : α)
  | panic (p : Panic)

/-- The message of `unexpectedAstError.Error`, given the `%#v` rendering of nodes. -/
def unexpectedAstError.Error (goRepr : Node → List Char) (X : Node) : List Char :=
  "unexpected ast: ".toList ++ goRepr X

/-- The message of an error value (`err.Error()`). -/
def GoError.Error (goRepr : Node → List Char) : GoError → List Char
  | .unexpectedAstError X => unexpectedAstError.Error goRepr X
  | .foreign msg => msg.toList

/-- The pretty-printer `printer.Fprint(w, token.NewFileSet(), node)` as a black box: the text
it writes to `w` and the error it returns. -/
abbrev Printer := Node → List Char × Option GoError

/-! ## `printAssignStmtsFromFuncArgs` -/

/-- The loop state of `printAssignStmtsFromFuncArgs`: `lhs`, `rhs` and the index `i`. -/
structure BindState where
  lhs : List Expr
  rhs : List Expr
  i : Nat

/-- The inner loop `for _, name := range param.Names`: appends the name to `lhs` and
`f.Args[i]` to `rhs`; the index expression panics when `i` is out of range. -/
def bindNames (args : List Expr) : List String → BindState → Exec BindState
  | [], st => .ret st
  | name :: names, st =>
    match (args[st.i]? : Option Expr) with
    | none => .panic (.indexOutOfRange st.i args.length)
    | some a => bindNames args names ⟨st.lhs ++ [.ident name], st.rhs ++ [a], st.i + 1⟩

/-- The outer loop `for _, param := range fn.Type.Params.List`. -/
def bindParams (args : List Expr) : List Field → BindState → Exec BindState
  | [], st => .ret st
  | param :: params, st =>
    match bindNames args param.Names st with
    | .panic p => .panic p
    | .ret st1 => bindParams args params st1

/-- `printer.Fprint(out, token.NewFileSet(), stmt)` for an assignment statement `stmt`: the
printer first asks the statement for its position, and `AssignStmt.Pos` is
`s.Lhs[0].Pos()`, an index out of range when the left side is empty; on a statement with a
left side the black box prints. -/
def fprintAssignStmt (pr : Printer) (lhs : List Expr) (tok : Token) (rhs : List Expr) :
    Exec (List Char × Option GoError) :=
  match lhs with
  | [] => .panic (.indexOutOfRange 0 0)
  | _ :: _ => .ret (pr (.stmt (.assignStmt lhs tok rhs)))

/-- `printAssignStmtsFromFuncArgs(out, f)`: the new contents of `out` and the returned error,
or a panic.  The first type assertion `f.Fun.(*ast.ParenExpr)` has no `ok` result and
panics on another node kind; the second one, `.X.(*ast.FuncLit)`, is the checked one.
When no parameter name is declared the statement has an empty left side and the printer
panics, after the newline and the tab have gone to `out`. -/
def printAssignStmtsFromFuncArgs (pr : Printer) (out : List Char) (f : CallExpr) :
    Exec (List Char × Option GoError) :=
  match f.Fun with
  | .parenExpr x =>
    match x with
    | .funcLit type _ =>
      match bindParams f.Args type.Params ⟨[], [], 0⟩ with
      | .panic p => .panic p
      | .ret st =>
        let out1 := out ++ ['\n', '\t']
        match fprintAssignStmt pr st.lhs Token.DEFINE st.rhs with
        | .panic p => .panic p
        | .ret r => .ret (out1 ++ r.1, r.2)
    | _ => .ret (out, some (.unexpectedAstError f.toNode))
  | _ => .panic .typeAssertion

/-! ## `getReturnStmtCompositeLit` -/

/-- `getReturnStmtCompositeLit(f)`: the returned pair (literal, error), or a panic. -/
def getReturnStmtCompositeLit (f : CallExpr) : Exec (Option CompositeLit × Option GoError) :=
  match f.Fun with
  | .parenExpr x =>
    match x with
    | .funcLit _ body =>
      if body.List.length ≠ 1 then
        .ret (none, some (.unexpectedAstError (.block body)))
      else
        match (body.List[0]? : Option Stmt) with
        | none => .panic (.indexOutOfRange 0 body.List.length)
        | some (.returnStmt results) =>
          if results.length ≠ 1 then
            .ret (none, some (.unexpectedAstError (.stmt (.returnStmt results))))
          else
            match (results[0]? : Option Expr) with
            | none => .panic (.indexOutOfRange 0 results.length)
            | some (.compositeLit type elts) => .ret (some ⟨type, elts⟩, none)
            | some e => .ret (none, some (.unexpectedAstError (.expr e)))
        | some s => .ret (none, some (.unexpectedAstError (.stmt s)))
    | _ => .ret (none, some (.unexpectedAstError f.toNode))
  | _ => .panic .typeAssertion

/-- The names declared by the parameter fields, in declaration order. -/
def paramNames (params : List Field) : List String :=
  (params.map Field.Names).flatten

/-- The type test `_, ok := s.(*ast.ReturnStmt)`. -/
def Stmt.isReturnStmt : Stmt → Bool
  | .returnStmt _ => true
  | _ => false

/-- The type test `_, ok := e.(*ast.CompositeLit)`. -/
def Expr.isCompositeLit : Expr → Bool
  | .compositeLit _ _ => true
  | _ => false

/-- The type test `_, ok := e.(*ast.ParenExpr)`. -/
def Expr.isParenExpr : Expr → Bool
  | .parenExpr _ => true
  | _ => false

/-- The type test `_, ok := e.(*ast.FuncLit)`. -/
def Expr.isFuncLit : Expr → Bool
  | .funcLit _ _ => true
  | _ => false

/-! ## The regular expression of the symbolization loop

`regexp.MustCompile(fmt.Sprintf("\\bOp: %d\\b", op))` is a literal between two `\b`
assertions.  `\b` holds where exactly one of the characters before and after the position
is a word character (`[0-9A-Za-z_]`); the start and the end of the text count as a
non-word character. -/

/-- The word characters of Go's `regexp/syntax`: ASCII letters, digits and underscore. -/
def isWordChar (c : Char) : Bool := c.isAlphanum || c == '_'

/-- Whether the text starts with a word character (false at the end of the text). -/
def headIsWord : List Char → Bool
  | [] => false
  | c :: _ => isWordChar c

/-- The assertion `\b` at a position, given whether the character before the position is a
word character (`prevWord`, false at the start of the text) and the text `s` after it. -/
def wordBoundary (prevWord : Bool) (s : List Char) : Bool := prevWord != headIsWord s

/-- Whether the last character read is a word character after reading `u`, when it was
`prevWord` before. -/
def lastIsWord (prevWord : Bool) : List Char → Bool
  | [] => prevWord
  | c :: cs => lastIsWord (isWordChar c) cs

/-- Reads the literal `lit` at the head of the text and returns what follows it. -/
def stripLit : List Char → List Char → Option (List Char)
  | [], s => some s
  | _ :: _, [] => none
  | a :: lit, c :: cs => if a = c then stripLit lit cs else none

/-- Whether `\b lit \b` matches at the head of `s`, the character before being a word
character or not according to `prevWord`. -/
def matchLit (lit : List Char) (prevWord : Bool) (s : List Char) : Bool :=
  wordBoundary prevWord s &&
    match stripLit lit s with
    | some rest => wordBoundary (lastIsWord prevWord lit) rest
    | none => false

/-- The scan of `ReplaceAllString` for the expression `\b lit \b` (`lit` not empty): at a
match the replacement is written and the scan resumes after the match, otherwise the
character is copied.  `skip` counts the characters of the current match still to pass.
The replacement `repl` is written as it is: `ReplaceAllString` expands `$` references in
the replacement, which changes nothing in a replacement without `$`, and the replacements
of the generator hold no `$` (`Operators.plain`). -/
def replaceAllFrom (lit repl : List Char) : Nat → Bool → List Char → List Char
  | _, _, [] => []
  | skip + 1, _, c :: cs => replaceAllFrom lit repl skip (isWordChar c) cs
  | 0, prevWord, c :: cs =>
    if matchLit lit prevWord (c :: cs) then
      repl ++ replaceAllFrom lit repl (lit.length - 1) (isWordChar c) cs
    else
      c :: replaceAllFrom lit repl 0 (isWordChar c) cs

/-- `regexp.MustCompile("\\b" + lit + "\\b").ReplaceAllString(src, repl)`. -/
def ReplaceAllString (lit : List Char) (src repl : List Char) : List Char :=
  replaceAllFrom lit repl 0 false src

/-- The rendering `%d` of an operator ordinal. -/
def decimal (n : Nat) : List Char := Nat.toDigits 10 n

/-- What the generator knows of `gojq.Operator`: the bounds `OpAdd` and `OpAlt` of the loop
(constants counted from `iota`, hence natural numbers), and the `%#v` rendering of an
operator (its `GoString`), which holds no `$` for the operators of the loop.  The type is
declared in the package `gojq`, outside the generator. -/
structure Operators where
  OpAdd : Nat
  OpAlt : Nat
  GoString : Nat → List Char
  plain : ∀ n, OpAdd ≤ n → n ≤ OpAlt → '$' ∉ GoString n

/-- The literal of the pattern `fmt.Sprintf("\\bOp: %d\\b", op)`. -/
def opPattern (op : Nat) : List Char := ['O', 'p', ':', ' '] ++ decimal op

/-- The replacement `fmt.Sprintf("Op: %#v", op)`. -/
def opReplacement (ops : Operators) (op : Nat) : List Char :=
  ['O', 'p', ':', ' '] ++ ops.GoString op

/-- The ordinals visited by `for op := gojq.OpAdd; op <= gojq.OpAlt; op++`, in order. -/
def opRange (ops : Operators) : List Nat := List.range' ops.OpAdd (ops.OpAlt + 1 - ops.OpAdd)

/-- One iteration of the loop: `str = r.ReplaceAllString(str, ...)`. -/
def symbolizeStep (ops : Operators) (str : List Char) (op : Nat) : List Char :=
  ReplaceAllString (opPattern op) str (opReplacement ops op)

/-- The symbolization loop of `printCompositeLit` applied to the rendered entry `str`. -/
def symbolize (ops : Operators) (str : List Char) : List Char :=
  (opRange ops).foldl (symbolizeStep ops) str

/-! ## `printCompositeLit` -/

/-- The loop `for _, kv := range t.Elts` of `printCompositeLit`, from the buffer `out`. -/
def printElts (pr : Printer) (ops : Operators) : List Expr → List Char →
    List Char × Option GoError
  | [], out => (out, none)
  | kv :: kvs, out =>
    let out1 := out ++ ['\n', '\t', '\t']
    let r := pr (.expr kv)
    match r.2 with
    | some err => (out1, some err)
    | none => printElts pr ops kvs (out1 ++ symbolize ops r.1 ++ [','])

/-- `printCompositeLit(out, t)`: the new contents of `out` and the returned error. -/
def printCompositeLit (pr : Printer) (ops : Operators) (out : List Char) (t : CompositeLit) :
    List Char × Option GoError :=
  let r := pr (exprNode t.type)
  match r.2 with
  | some err => (out ++ r.1, some err)
  | none =>
    match printElts pr ops t.Elts (out ++ r.1 ++ ['\x7b']) with
    | (out2, some err) => (out2, some err)
    | (out2, none) => (out2 ++ ['\n', '\t', '\x7d', '\n'], none)

/-! ## `run` -/

/-- The format `fileFormat` applied to its one `%s` argument. -/
def fileFormat (body : List Char) : List Char :=
  "// Code generated by _tools/gen_builtin.go; DO NOT EDIT.\n\npackage gojq\n\nfunc init() \x7b".toList
    ++ body ++ "\x7d\n".toList

/-- The collaborators of `run`: `gojq.Parse`, `astgen.Build` (a function of the map of
parsed queries), `printer.Fprint` and the operator kinds. -/
structure Collaborators (Query : Type) where
  Parse : String → Except GoError Query
  Build : (String → Option Query) → Except GoError Node
  Fprint : Printer
  operators : Operators

/-- The output destinations: the bytes written to standard output so far and the files by
path. -/
structure World where
  stdout : List Char
  files : String → Option (List Char)

/-- The behaviour of the operating system during one run: whether `os.Create` fails for a
path, and whether the write fails, after how many bytes. -/
structure OS where
  createErr : String → Option GoError
  writeErr : Option (Nat × GoError)

/-- The loop `for n, src := range gojq.BuiltinFuncDefinitions` over the entries in the order
they are visited: `qs[n] = q`, or the first parse error. -/
def loadDefinitions {Query : Type} (Parse : String → Except GoError Query) :
    List (String × String) → (String → Option Query) → Except GoError (String → Option Query)
  | [], qs => .ok qs
  | (n, src) :: defs, qs =>
    match Parse src with
    | .error err => .error err
    | .ok q => loadDefinitions Parse defs (fun k => if k = n then some q else qs k)

/-- The bytes accepted by a write and its error. -/
def writeBytes (os : OS) (text : List Char) : List Char × Option GoError :=
  match os.writeErr with
  | none => (text, none)
  | some (k, err) => (text.take k, some err)

/-- The end of `run`, once the buffer is complete: open the destination and write. -/
def emit (os : OS) (output : String) (buf : List Char) (w : World) : Option GoError × World :=
  if output = "" then
    let r := writeBytes os (fileFormat buf)
    (r.2, { w with stdout := w.stdout ++ r.1 })
  else
    match os.createErr output with
    | some err => (some err, w)
    | none =>
      let r := writeBytes os (fileFormat buf)
      (r.2, { w with files := fun path => if path = output then some r.1 else w.files path })

/-- `run(output)` on the definition table `defs` (in visiting order): the returned error or
the panic, and the destinations afterwards. -/
def run {Query : Type} (c : Collaborators Query) (os : OS) (defs : List (String × String))
    (output : String) (w : World) : Exec (Option GoError) × World :=
  match loadDefinitions c.Parse defs (fun _ => none) with
  | .error err => (.ret (some err), w)
  | .ok qs =>
    match c.Build qs with
    | .error err => (.ret (some err), w)
    | .ok t =>
      match t with
      | .expr (.callExpr fn args) =>
        let f : CallExpr := ⟨fn, args⟩
        match printAssignStmtsFromFuncArgs c.Fprint [] f with
        | .panic p => (.panic p, w)
        | .ret (_, some err) => (.ret (some err), w)
        | .ret (buf1, none) =>
          let buf2 := buf1 ++ "\n\tbuiltinFuncs = ".toList
          match getReturnStmtCompositeLit f with
          | .panic p => (.panic p, w)
          | .ret (_, some err) => (.ret (some err), w)
          | .ret (none, none) => (.panic .nilDereference, w)
          | .ret (some m, none) =>
            match printCompositeLit c.Fprint c.operators buf2 m with
            | (_, some err) => (.ret (some err), w)
            | (buf3, none) =>
              let r := emit os output buf3 w
              (.ret r.1, r.2)
      | _ => (.ret (some (.unexpectedAstError t)), w)

/-! ## The single scan the loop amounts to -/

/-- A single left-to-right scan that handles all the ordinals of `ns` at once: where the
word-bounded text `Op: n` starts, for an `n` of `ns`, it writes `Op: ` and the name of `n`
and resumes after the numeral; every other character is copied. -/
def symbolScan (ops : Operators) (ns : List Nat) : Nat → Bool → List Char → List Char
  | _, _, [] => []
  | skip + 1, _, c :: cs => symbolScan ops ns skip (isWordChar c) cs
  | 0, prevWord, c :: cs =>
    match ns.find? (fun n => matchLit (opPattern n) prevWord (c :: cs)) with
    | some n =>
      opReplacement ops n ++ symbolScan ops ns ((opPattern n).length - 1) (isWordChar c) cs
    | none => c :: symbolScan ops ns 0 (isWordChar c) cs

/-- Whether a text can stand for an operator in the emitted source: a Go identifier (not
empty, word characters only, no digit first) other than the field name `Op` itself. -/
def isSymbolicName (name : List Char) : Bool :=
  !name.isEmpty && name.all isWordChar && !(name.head?.any Char.isDigit) &&
    !(name == ['O', 'p'])

/-- The number spelled by a string of decimal digits. -/
def digitsValue (ds : List Char) : Nat := ds.foldl (fun acc c => acc * 10 + (c.toNat - 48)) 0

/-- A word-bounded occurrence of `Op: n` at the head of `s`, followed by `rest`: the
character before is not a word character and neither is the first one of `rest`. -/
def OccursAt (n : Nat) (prevWord : Bool) (s rest : List Char) : Prop :=
  prevWord = false ∧ s = opPattern n ++ rest ∧ headIsWord rest = false

/-- Whether the text contains, at some position, the word-bounded text `Op: n` for an `n`
of `ns`: a bare ordinal as the value of `Op`. -/
def hasBareOrdinal (ns : List Nat) : Bool → List Char → Bool
  | _, [] => false
  | prevWord, c :: cs =>
    ns.any (fun n => matchLit (opPattern n) prevWord (c :: cs)) ||
      hasBareOrdinal ns (isWordChar c) cs

/-- The text made of segments, each a piece of text followed by `Op: ` and the rendering
`f n` of an ordinal, and of a closing piece of text. -/
def joinSegments (f : Nat → List Char) : List (List Char × Nat) → List Char → List Char
  | [], closing => closing
  | (u, n) :: segs, closing => u ++ (['O', 'p', ':', ' '] ++ f n) ++ joinSegments f segs closing

/-! ## The way back from symbolic names to ordinals

The round trip of the symbolization is stated against the replacement the other way
round: where the word-bounded text `Op: ` and the name of an ordinal `n` of `ns` starts,
`Op: n` is written. -/

/-- A single left-to-right scan that writes `Op: n` for every word-bounded `Op: name` where
`name` is the symbolic form of an ordinal `n` of `ns`, and copies every other character. -/
def unsymbolScan (ops : Operators) (ns : List Nat) : Nat → Bool → List Char → List Char
  | _, _, [] => []
  | skip + 1, _, c :: cs => unsymbolScan ops ns skip (isWordChar c) cs
  | 0, prevWord, c :: cs =>
    match ns.find? (fun n => matchLit (opReplacement ops n) prevWord (c :: cs)) with
    | some n =>
      opPattern n ++ unsymbolScan ops ns ((opReplacement ops n).length - 1) (isWordChar c) cs
    | none => c :: unsymbolScan ops ns 0 (isWordChar c) cs

/-- Replaces in a text each `Op: name`, `name` the symbolic form of an ordinal `n` of the
range, by `Op: n`. -/
def unsymbolize (ops : Operators) (str : List Char) : List Char :=
  unsymbolScan ops (opRange ops) 0 false str

/-- Whether the text contains, at some position, the word-bounded text `Op: name` for the
symbolic form `name` of an ordinal of `ns`: a symbolic operator name after `Op: `. -/
def hasSymbolicName (ops : Operators) (ns : List Nat) : Bool → List Char → Bool
  | _, [] => false
  | prevWord, c :: cs =>
    ns.any (fun n => matchLit (opReplacement ops n) prevWord (c :: cs)) ||
      hasSymbolicName ops ns (isWordChar c) cs

/-! ## Sample data, used to run the model on examples -/

/-- A sample operator table: fourteen operators numbered from 1, with gojq's names. -/
def demoOperators : Operators where
  OpAdd := 1
  OpAlt := 14
  GoString := fun n =>
    match n with
    | 1 => "OpAdd".toList | 2 => "OpSub".toList | 3 => "OpMul".toList | 4 => "OpDiv".toList
    | 5 => "OpMod".toList | 6 => "OpEq".toList | 7 => "OpNe".toList | 8 => "OpGt".toList
    | 9 => "OpLt".toList | 10 => "OpGe".toList | 11 => "OpLe".toList | 12 => "OpAnd".toList
    | 13 => "OpOr".toList | 14 => "OpAlt".toList
    | _ => "Operator".toList
  plain := by
    intro n h1 h2
    interval_cases n <;> decide

/-- Renders identifiers, basic literals and `key: value` pairs of those; `?` otherwise. -/
def demoExpr : Expr → List Char
  | .ident name => name.toList
  | .basicLit _ value => value.toList
  | .keyValueExpr (.ident k) (.basicLit _ v) => k.toList ++ [':', ' '] ++ v.toList
  | .keyValueExpr (.ident k) (.ident v) => k.toList ++ [':', ' '] ++ v.toList
  | _ => ['?']

/-- Joins rendered expressions with a comma and a blank. -/
def demoExprs : List Expr → List Char
  | [] => []
  | [e] => demoExpr e
  | e :: es => demoExpr e ++ [',', ' '] ++ demoExprs es

/-- A printer for examples: assignments `a, b := x, y`, simple expressions, and an error
for every other node. -/
def demoPrinter : Printer
  | .stmt (.assignStmt lhs .DEFINE rhs) => (demoExprs lhs ++ " := ".toList ++ demoExprs rhs, none)
  | .expr e => (demoExpr e, none)
  | _ => ([], some (.foreign "go/printer: unsupported node type"))

/-- A sample parser: the empty source is rejected, any other source is its own query. -/
def demoParse (src : String) : Except GoError String :=
  if src = "" then .error (.foreign "unexpected EOF") else .ok src

/-- A sample call `(func(a T) { return M{Op: 3} })(x)`, as the builder returns it. -/
def demoCall : Node :=
  .expr (.callExpr
    (.parenExpr (.funcLit (.mk [.mk ["a"] (.ident "T")] [])
      (.mk [.returnStmt [.compositeLit (some (.ident "M"))
        [.keyValueExpr (.ident "Op") (.basicLit 5 "3")]]])))
    [.ident "x"])

/-- Sample collaborators: the sample parser and printer, a builder that returns the sample
call for a map with an entry `inc` and fails otherwise. -/
def demoCollaborators : Collaborators String where
  Parse := demoParse
  Build := fun qs =>
    match qs "inc" with
    | some _ => .ok demoCall
    | none => .error (.foreign "astgen: empty map")
  Fprint := demoPrinter
  operators := demoOperators

/-- An operating system on which creating and writing succeed. -/
def demoOS : OS where
  createErr := fun _ => none
  writeErr := none

/-- Destinations with nothing written yet. -/
def emptyWorld : World where
  stdout := []
  files := fun _ => none

/-! ## Theorems -/

/-- The inner loop succeeds when enough arguments remain: it appends the names to `lhs`
and the next `names.length` arguments to `rhs`. -/
theorem bindNames_of_le (args : List Expr) :
    ∀ (names : List String) (st : BindState), st.i + names.length ≤ args.length →
      bindNames args names st =
        .ret ⟨st.lhs ++ names.map Expr.ident, st.rhs ++ (args.drop st.i).take names.length,
              st.i + names.length⟩ := by
  intro names
  induction names with
  | nil => intro st _; simp [bindNames]
  | cons name names ih =>
    intro st h
    simp only [List.length_cons] at h
    have hi : st.i < args.length := by omega
    rw [bindNames, List.getElem?_eq_getElem hi]
    simp only
    rw [ih _ (by simp only; omega)]
    have hd : args.drop st.i = args[st.i] :: args.drop (st.i + 1) :=
      List.drop_eq_getElem_cons hi
    rw [hd, List.length_cons, List.take_succ_cons, List.map_cons]
    simp only [List.append_assoc, List.singleton_append, Nat.add_assoc, Nat.add_comm 1]

/-- The outer loop succeeds when the call has at least as many arguments as the fields
declare names. -/
theorem bindParams_of_le (args : List Expr) :
    ∀ (params : List Field) (st : BindState),
      st.i + (paramNames params).length ≤ args.length →
      bindParams args params st =
        .ret ⟨st.lhs ++ (paramNames params).map Expr.ident,
              st.rhs ++ (args.drop st.i).take (paramNames params).length,
              st.i + (paramNames params).length⟩ := by
  intro params
  induction params with
  | nil => intro st _; simp [bindParams, paramNames]
  | cons param params ih =>
    intro st h
    have hsplit : paramNames (param :: params) = param.Names ++ paramNames params := by
      simp [paramNames]
    rw [hsplit] at h ⊢
    simp only [List.length_append] at h
    rw [bindParams, bindNames_of_le args param.Names st (by omega)]
    simp only
    rw [ih _ (by simp only; omega)]
    simp only [List.length_append, List.map_append, List.append_assoc, List.take_add,
      List.drop_drop, Nat.add_assoc, Nat.add_comm param.Names.length st.i]

/-- On a statement with a left side the printer is the black box. -/
theorem fprintAssignStmt_of_ne_nil (pr : Printer) (lhs : List Expr) (tok : Token)
    (rhs : List Expr) (h : lhs ≠ []) :
    fprintAssignStmt pr lhs tok rhs = .ret (pr (.stmt (.assignStmt lhs tok rhs))) := by
  cases lhs with
  | nil => exact absurd rfl h
  | cons e es => rfl

/-- Without a declared name the statement has no left side and the printer panics, whatever
the arguments are. -/
theorem printAssignStmtsFromFuncArgs_no_name (pr : Printer) (out : List Char) (f : CallExpr)
    (type : FuncType) (body : BlockStmt)
    (hfun : f.Fun = .parenExpr (.funcLit type body))
    (hnone : (paramNames type.Params).length = 0) :
    printAssignStmtsFromFuncArgs pr out f = .panic (.indexOutOfRange 0 0) := by
  unfold printAssignStmtsFromFuncArgs
  rw [hfun]
  simp only
  rw [bindParams_of_le f.Args type.Params ⟨[], [], 0⟩ (by simp [hnone])]
  simp only [List.length_eq_zero.1 hnone, List.map_nil, List.nil_append]
  rfl

/-- With a declared name and at least as many arguments as names, the statement binds the
names to the first arguments and is printed after a newline and a tab. -/
theorem printAssignStmtsFromFuncArgs_of_le (pr : Printer) (out : List Char) (f : CallExpr)
    (type : FuncType) (body : BlockStmt)
    (hfun : f.Fun = .parenExpr (.funcLit type body))
    (hpos : 0 < (paramNames type.Params).length)
    (hlen : (paramNames type.Params).length ≤ f.Args.length) :
    printAssignStmtsFromFuncArgs pr out f =
      .ret (out ++ ['\n', '\t'] ++
              (pr (.stmt (.assignStmt ((paramNames type.Params).map Expr.ident) .DEFINE
                (f.Args.take (paramNames type.Params).length)))).1,
            (pr (.stmt (.assignStmt ((paramNames type.Params).map Expr.ident) .DEFINE
                (f.Args.take (paramNames type.Params).length)))).2) := by
  have hne : (paramNames type.Params).map Expr.ident ≠ [] := by
    intro h
    rw [← List.length_eq_zero, List.length_map] at h
    omega
  unfold printAssignStmtsFromFuncArgs
  rw [hfun]
  simp only
  rw [bindParams_of_le f.Args type.Params ⟨[], [], 0⟩ (by simpa using hlen)]
  simp only [List.nil_append, List.drop_zero]
  rw [fprintAssignStmt_of_ne_nil pr _ _ _ hne]

/-- C1 (Binding Extractor pairing) fails on a call without a declared name and without an
argument: on `(func() {})()` the statement has no left side, the printer asks for
`Lhs[0]` and panics; `printAssignStmtsFromFuncArgs` does not return. -/
theorem printAssignStmtsFromFuncArgs_no_name_counterexample :
    (⟨.parenExpr (.funcLit (.mk [] []) (.mk [])), []⟩ : CallExpr).Args.length
      = (paramNames (FuncType.mk [] []).Params).length ∧
    printAssignStmtsFromFuncArgs demoPrinter []
        ⟨.parenExpr (.funcLit (.mk [] []) (.mk [])), []⟩
      = .panic (.indexOutOfRange 0 0) ∧
    ¬ ∃ r, printAssignStmtsFromFuncArgs demoPrinter []
        ⟨.parenExpr (.funcLit (.mk [] []) (.mk [])), []⟩ = .ret r := by
  refine ⟨rfl, rfl, ?_⟩
  rintro ⟨r, hr⟩
  have h : printAssignStmtsFromFuncArgs demoPrinter []
        ⟨.parenExpr (.funcLit (.mk [] []) (.mk [])), []⟩
      = .panic (.indexOutOfRange 0 0) := rfl
  rw [h] at hr
  exact absurd hr (by simp)

/-- C1 as amended (Binding Extractor pairing): for a call whose callee is a parenthesized
function literal declaring `n` parameter names, `n` at least 1, and that has `n`
arguments, `printAssignStmtsFromFuncArgs` writes a newline and a tab followed by the
rendering of one statement `lhs := rhs` (token `DEFINE`), where `lhs` is the parameter
names in declaration order and `rhs` is the arguments in order; the `k`-th name is bound
to the `k`-th argument for every `k < n`.  The returned error is the printer's. -/
theorem printAssignStmtsFromFuncArgs_pairs (pr : Printer) (out : List Char) (f : CallExpr)
    (type : FuncType) (body : BlockStmt)
    (hfun : f.Fun = .parenExpr (.funcLit type body))
    (hpos : 0 < (paramNames type.Params).length)
    (hlen : f.Args.length = (paramNames type.Params).length) :
    ∃ lhs rhs : List Expr,
      printAssignStmtsFromFuncArgs pr out f =
        .ret (out ++ ['\n', '\t'] ++ (pr (.stmt (.assignStmt lhs .DEFINE rhs))).1,
              (pr (.stmt (.assignStmt lhs .DEFINE rhs))).2) ∧
      lhs = (paramNames type.Params).map Expr.ident ∧
      rhs = f.Args ∧
      ∀ k, k < (paramNames type.Params).length →
        ∃ name arg, (paramNames type.Params)[k]? = some name ∧ f.Args[k]? = some arg ∧
          lhs[k]? = some (.ident name) ∧ rhs[k]? = some arg := by
  refine ⟨(paramNames type.Params).map Expr.ident, f.Args, ?_, rfl, rfl, ?_⟩
  · rw [printAssignStmtsFromFuncArgs_of_le pr out f type body hfun hpos (by omega), ← hlen,
      List.take_length]
  · intro k hk
    have hk2 : k < f.Args.length := by omega
    exact ⟨(paramNames type.Params)[k], f.Args[k], List.getElem?_eq_getElem hk,
      List.getElem?_eq_getElem hk2, by simp [List.getElem?_eq_getElem hk],
      List.getElem?_eq_getElem hk2⟩

/-- C1 witness: `(func(a, b T) {})(x, y)` yields the text of `a, b := x, y`. -/
theorem printAssignStmtsFromFuncArgs_pairs_witness :
    0 < (paramNames (FuncType.mk [.mk ["a", "b"] (.ident "T")] []).Params).length ∧
    (⟨.parenExpr (.funcLit (.mk [.mk ["a", "b"] (.ident "T")] []) (.mk [])),
        [.ident "x", .ident "y"]⟩ : CallExpr).Args.length
      = (paramNames (FuncType.mk [.mk ["a", "b"] (.ident "T")] []).Params).length ∧
    printAssignStmtsFromFuncArgs demoPrinter []
      ⟨.parenExpr (.funcLit (.mk [.mk ["a", "b"] (.ident "T")] []) (.mk [])),
        [.ident "x", .ident "y"]⟩
      = .ret ("\n\ta, b := x, y".toList, none) := by
  refine ⟨by decide, rfl, ?_⟩
  obtain ⟨lhs, rhs, h, hl, hr, _⟩ :=
    printAssignStmtsFromFuncArgs_pairs demoPrinter []
      ⟨.parenExpr (.funcLit (.mk [.mk ["a", "b"] (.ident "T")] []) (.mk [])),
        [.ident "x", .ident "y"]⟩ _ _ rfl (by decide) rfl
  subst hl hr
  rw [h]
  rfl

/-- A parenthesized callee that is not a function literal is reported by both functions
with the call expression as the node (the checked type assertion). -/
theorem paren_not_funcLit_unexpectedAst (pr : Printer) (out : List Char) (f : CallExpr)
    (x : Expr) (hfun : f.Fun = .parenExpr x) (hx : x.isFuncLit = false) :
    printAssignStmtsFromFuncArgs pr out f = .ret (out, some (.unexpectedAstError f.toNode)) ∧
    getReturnStmtCompositeLit f = .ret (none, some (.unexpectedAstError f.toNode)) := by
  unfold printAssignStmtsFromFuncArgs getReturnStmtCompositeLit
  rw [hfun]
  cases x <;> simp_all [Expr.isFuncLit]

/-- C3 (callee-shape failure), the behaviour of the code on a callee that is not a
parenthesized expression: the unchecked type assertion `f.Fun.(*ast.ParenExpr)` panics in
`printAssignStmtsFromFuncArgs` and in `getReturnStmtCompositeLit`; neither returns an
`unexpectedAstError`. -/
theorem callee_not_paren_panics (pr : Printer) (out : List Char) (f : CallExpr)
    (hfun : f.Fun.isParenExpr = false) :
    printAssignStmtsFromFuncArgs pr out f = .panic .typeAssertion ∧
    getReturnStmtCompositeLit f = .panic .typeAssertion := by
  unfold printAssignStmtsFromFuncArgs getReturnStmtCompositeLit
  cases hf : f.Fun <;> simp_all [Expr.isParenExpr]

/-- C3 witness: the call `g(x)`, whose callee is the identifier `g`. -/
theorem callee_not_paren_panics_witness :
    (⟨.ident "g", [.ident "x"]⟩ : CallExpr).Fun.isParenExpr = false ∧
    printAssignStmtsFromFuncArgs demoPrinter [] ⟨.ident "g", [.ident "x"]⟩
      = .panic .typeAssertion ∧
    getReturnStmtCompositeLit ⟨.ident "g", [.ident "x"]⟩ = .panic .typeAssertion :=
  ⟨rfl, callee_not_paren_panics demoPrinter [] ⟨.ident "g", [.ident "x"]⟩ rfl⟩

/-- C4 (equal-length validation) fails on a call with more arguments than names:
`(func(a T) {})(x, y)` is not reported; the statement `a := x` is written and no error
is returned. -/
theorem printAssignStmtsFromFuncArgs_surplus_counterexample :
    (⟨.parenExpr (.funcLit (.mk [.mk ["a"] (.ident "T")] []) (.mk [])),
        [.ident "x", .ident "y"]⟩ : CallExpr).Args.length
      ≠ (paramNames (FuncType.mk [.mk ["a"] (.ident "T")] []).Params).length ∧
    printAssignStmtsFromFuncArgs demoPrinter []
        ⟨.parenExpr (.funcLit (.mk [.mk ["a"] (.ident "T")] []) (.mk [])),
          [.ident "x", .ident "y"]⟩
      = .ret ("\n\ta := x".toList, none) ∧
    ¬ ∃ X, printAssignStmtsFromFuncArgs demoPrinter []
        ⟨.parenExpr (.funcLit (.mk [.mk ["a"] (.ident "T")] []) (.mk [])),
          [.ident "x", .ident "y"]⟩
      = .ret ([], some (.unexpectedAstError X)) := by
  refine ⟨by decide, rfl, ?_⟩
  rintro ⟨X, hX⟩
  have h : printAssignStmtsFromFuncArgs demoPrinter []
        ⟨.parenExpr (.funcLit (.mk [.mk ["a"] (.ident "T")] []) (.mk [])),
          [.ident "x", .ident "y"]⟩
      = .ret ("\n\ta := x".toList, none) := rfl
  rw [h] at hX
  simp at hX

/-- C4 as amended: on a call whose callee is a parenthesized function literal that declares
at least one parameter name and has more arguments than names, no length check is made;
the statement binding the names to the first arguments is written after a newline and a
tab, and the error returned is the printer's. -/
theorem printAssignStmtsFromFuncArgs_surplus (pr : Printer) (out : List Char) (f : CallExpr)
    (type : FuncType) (body : BlockStmt)
    (hfun : f.Fun = .parenExpr (.funcLit type body))
    (hpos : 0 < (paramNames type.Params).length)
    (hlen : (paramNames type.Params).length < f.Args.length) :
    printAssignStmtsFromFuncArgs pr out f =
      .ret (out ++ ['\n', '\t'] ++
              (pr (.stmt (.assignStmt ((paramNames type.Params).map Expr.ident) .DEFINE
                (f.Args.take (paramNames type.Params).length)))).1,
            (pr (.stmt (.assignStmt ((paramNames type.Params).map Expr.ident) .DEFINE
                (f.Args.take (paramNames type.Params).length)))).2) :=
  printAssignStmtsFromFuncArgs_of_le pr out f type body hfun hpos (Nat.le_of_lt hlen)

/-- C4 witness: `(func(a T) {})(x, y)` yields the text of `a := x`. -/
theorem printAssignStmtsFromFuncArgs_surplus_witness :
    0 < (paramNames (FuncType.mk [.mk ["a"] (.ident "T")] []).Params).length ∧
    (paramNames (FuncType.mk [.mk ["a"] (.ident "T")] []).Params).length
      < (⟨.parenExpr (.funcLit (.mk [.mk ["a"] (.ident "T")] []) (.mk [])),
        [.ident "x", .ident "y"]⟩ : CallExpr).Args.length ∧
    printAssignStmtsFromFuncArgs demoPrinter ['v']
        ⟨.parenExpr (.funcLit (.mk [.mk ["a"] (.ident "T")] []) (.mk [])),
          [.ident "x", .ident "y"]⟩
      = .ret ("v\n\ta := x".toList, none) :=
  ⟨by decide, by decide,
   printAssignStmtsFromFuncArgs_surplus demoPrinter _
     ⟨.parenExpr (.funcLit (.mk [.mk ["a"] (.ident "T")] []) (.mk [])),
       [.ident "x", .ident "y"]⟩ _ _ rfl (by decide) (by decide)⟩

/-- A body that is not exactly one statement is reported with the body as the node. -/
theorem getReturnStmtCompositeLit_body (f : CallExpr) (type : FuncType) (body : BlockStmt)
    (hfun : f.Fun = .parenExpr (.funcLit type body)) (hlen : body.List.length ≠ 1) :
    getReturnStmtCompositeLit f = .ret (none, some (.unexpectedAstError (.block body))) := by
  unfold getReturnStmtCompositeLit
  rw [hfun]
  simp [hlen]

/-- A single statement that is not a return statement is reported with that statement. -/
theorem getReturnStmtCompositeLit_stmt (f : CallExpr) (type : FuncType) (body : BlockStmt)
    (s : Stmt) (hfun : f.Fun = .parenExpr (.funcLit type body)) (hbody : body.List = [s])
    (hs : s.isReturnStmt = false) :
    getReturnStmtCompositeLit f = .ret (none, some (.unexpectedAstError (.stmt s))) := by
  unfold getReturnStmtCompositeLit
  rw [hfun]
  cases s <;> simp_all [Stmt.isReturnStmt]

/-- A return statement without exactly one result is reported with the return statement. -/
theorem getReturnStmtCompositeLit_results (f : CallExpr) (type : FuncType) (body : BlockStmt)
    (rs : List Expr) (hfun : f.Fun = .parenExpr (.funcLit type body))
    (hbody : body.List = [.returnStmt rs]) (hlen : rs.length ≠ 1) :
    getReturnStmtCompositeLit f =
      .ret (none, some (.unexpectedAstError (.stmt (.returnStmt rs)))) := by
  unfold getReturnStmtCompositeLit
  rw [hfun]
  simp [hbody, hlen]

/-- A single result that is not a composite literal is reported with that result. -/
theorem getReturnStmtCompositeLit_result (f : CallExpr) (type : FuncType) (body : BlockStmt)
    (e : Expr) (hfun : f.Fun = .parenExpr (.funcLit type body))
    (hbody : body.List = [.returnStmt [e]]) (he : e.isCompositeLit = false) :
    getReturnStmtCompositeLit f = .ret (none, some (.unexpectedAstError (.expr e))) := by
  unfold getReturnStmtCompositeLit
  rw [hfun]
  cases e <;> simp_all [Expr.isCompositeLit]

/-- A body `return M` with `M` a composite literal yields `M` and no error. -/
theorem getReturnStmtCompositeLit_ok (f : CallExpr) (type : FuncType) (body : BlockStmt)
    (t : Option Expr) (elts : List Expr) (hfun : f.Fun = .parenExpr (.funcLit type body))
    (hbody : body.List = [.returnStmt [.compositeLit t elts]]) :
    getReturnStmtCompositeLit f = .ret (some ⟨t, elts⟩, none) := by
  unfold getReturnStmtCompositeLit
  rw [hfun]
  simp [hbody]

/-- C2 (Return-shape validation): for a call whose callee is a parenthesized function
literal, `getReturnStmtCompositeLit` returns the literal `m` and no error exactly when the
body is one statement, a return statement, with one result, the composite literal `m`; in
every other case it returns an `unexpectedAstError` and no literal. -/
theorem getReturnStmtCompositeLit_iff (f : CallExpr) (type : FuncType) (body : BlockStmt)
    (hfun : f.Fun = .parenExpr (.funcLit type body)) :
    (∀ m : CompositeLit,
      getReturnStmtCompositeLit f = .ret (some m, none) ↔
        body.List = [.returnStmt [.compositeLit m.type m.Elts]]) ∧
    ((¬ ∃ m : CompositeLit, body.List = [.returnStmt [.compositeLit m.type m.Elts]]) →
      ∃ X, getReturnStmtCompositeLit f = .ret (none, some (.unexpectedAstError X))) := by
  have key : (∃ t elts, body.List = [.returnStmt [.compositeLit t elts]]) ∨
      ∃ X, getReturnStmtCompositeLit f = .ret (none, some (.unexpectedAstError X)) := by
    rcases hb : body.List with _ | ⟨s, _ | ⟨s2, rest⟩⟩
    · exact .inr ⟨_, getReturnStmtCompositeLit_body f type body hfun (by simp [hb])⟩
    · cases s with
      | returnStmt rs =>
        rcases rs with _ | ⟨e, _ | ⟨e2, rest⟩⟩
        · exact .inr ⟨_, getReturnStmtCompositeLit_results f type body _ hfun hb (by simp)⟩
        · cases e with
          | compositeLit t elts => exact .inl ⟨t, elts, rfl⟩
          | _ => exact .inr ⟨_, getReturnStmtCompositeLit_result f type body _ hfun hb rfl⟩
        · exact .inr ⟨_, getReturnStmtCompositeLit_results f type body _ hfun hb (by simp)⟩
      | _ => exact .inr ⟨_, getReturnStmtCompositeLit_stmt f type body _ hfun hb rfl⟩
    · exact .inr ⟨_, getReturnStmtCompositeLit_body f type body hfun (by simp [hb])⟩
  refine ⟨fun m => ?_, fun h => ?_⟩
  · rcases key with ⟨t, elts, hb⟩ | ⟨X, hX⟩
    · rw [getReturnStmtCompositeLit_ok f type body t elts hfun hb, hb]
      constructor
      · intro h
        simp only [Exec.ret.injEq, Prod.mk.injEq, Option.some.injEq, and_true] at h
        subst h
        rfl
      · intro h
        simp only [List.cons.injEq, Stmt.returnStmt.injEq, Expr.compositeLit.injEq,
          and_true] at h
        obtain ⟨h1, h2⟩ := h
        subst h1 h2
        rfl
    · rw [hX]
      constructor
      · intro h
        simp at h
      · intro h
        rw [getReturnStmtCompositeLit_ok f type body _ _ hfun h] at hX
        simp at hX
  · rcases key with ⟨t, elts, hb⟩ | hX
    · exact absurd ⟨⟨t, elts⟩, hb⟩ h
    · exact hX

/-- C2 witness: `(func() { return M{} })()` yields the literal; a body with two
results yields an error and no literal. -/
theorem getReturnStmtCompositeLit_iff_witness :
    getReturnStmtCompositeLit
        ⟨.parenExpr (.funcLit (.mk [] [])
          (.mk [.returnStmt [.compositeLit (some (.ident "M")) []]])), []⟩
      = .ret (some ⟨some (.ident "M"), []⟩, none) ∧
    ∃ X, getReturnStmtCompositeLit
        ⟨.parenExpr (.funcLit (.mk [] [])
          (.mk [.returnStmt [.ident "a", .ident "b"]])), []⟩
      = .ret (none, some (.unexpectedAstError X)) := by
  constructor
  · exact ((getReturnStmtCompositeLit_iff _ (.mk [] [])
      (.mk [.returnStmt [.compositeLit (some (.ident "M")) []]]) rfl).1
        ⟨some (.ident "M"), []⟩).2 rfl
  · refine (getReturnStmtCompositeLit_iff _ (.mk [] [])
      (.mk [.returnStmt [.ident "a", .ident "b"]]) rfl).2 ?_
    rintro ⟨m, hm⟩
    simp [BlockStmt.List] at hm

/-- C10 (the structural error carries the offending node): for a call whose callee is a
parenthesized function literal, the error of `getReturnStmtCompositeLit` carries (a) the
body when the body is not exactly one statement, (b) the single statement when it is not
a return statement, (c) the return statement when it has not exactly one result, (d) the
single result when it is not a composite literal; and the message of the error is
`unexpected ast: ` followed by the `%#v` rendering of the carried node. -/
theorem getReturnStmtCompositeLit_offending_node (goRepr : Node → List Char) (f : CallExpr)
    (type : FuncType) (body : BlockStmt) (s : Stmt) (rs : List Expr) (e : Expr) (X : Node)
    (hfun : f.Fun = .parenExpr (.funcLit type body)) :
    (body.List.length ≠ 1 →
      getReturnStmtCompositeLit f = .ret (none, some (.unexpectedAstError (.block body)))) ∧
    (body.List = [s] → s.isReturnStmt = false →
      getReturnStmtCompositeLit f = .ret (none, some (.unexpectedAstError (.stmt s)))) ∧
    (body.List = [.returnStmt rs] → rs.length ≠ 1 →
      getReturnStmtCompositeLit f =
        .ret (none, some (.unexpectedAstError (.stmt (.returnStmt rs))))) ∧
    (body.List = [.returnStmt [e]] → e.isCompositeLit = false →
      getReturnStmtCompositeLit f = .ret (none, some (.unexpectedAstError (.expr e)))) ∧
    GoError.Error goRepr (.unexpectedAstError X) = "unexpected ast: ".toList ++ goRepr X :=
  ⟨getReturnStmtCompositeLit_body f type body hfun,
   getReturnStmtCompositeLit_stmt f type body s hfun,
   getReturnStmtCompositeLit_results f type body rs hfun,
   getReturnStmtCompositeLit_result f type body e hfun, rfl⟩

/-- C10 witness: one input for each of the four shapes. -/
theorem getReturnStmtCompositeLit_offending_node_witness :
    getReturnStmtCompositeLit ⟨.parenExpr (.funcLit (.mk [] []) (.mk [])), []⟩
      = .ret (none, some (.unexpectedAstError (.block (.mk [])))) ∧
    getReturnStmtCompositeLit
        ⟨.parenExpr (.funcLit (.mk [] []) (.mk [.exprStmt (.ident "x")])), []⟩
      = .ret (none, some (.unexpectedAstError (.stmt (.exprStmt (.ident "x"))))) ∧
    getReturnStmtCompositeLit
        ⟨.parenExpr (.funcLit (.mk [] []) (.mk [.returnStmt [.ident "a", .ident "b"]])), []⟩
      = .ret (none, some (.unexpectedAstError
          (.stmt (.returnStmt [.ident "a", .ident "b"])))) ∧
    getReturnStmtCompositeLit
        ⟨.parenExpr (.funcLit (.mk [] []) (.mk [.returnStmt [.ident "a"]])), []⟩
      = .ret (none, some (.unexpectedAstError (.expr (.ident "a")))) ∧
    GoError.Error (fun _ => "n".toList) (.unexpectedAstError .nilNode)
      = "unexpected ast: n".toList :=
  ⟨(getReturnStmtCompositeLit_offending_node (fun _ => "n".toList) _ (.mk [] []) (.mk [])
      (.exprStmt (.ident "x")) [] (.ident "a") .nilNode rfl).1 (by decide),
   (getReturnStmtCompositeLit_offending_node (fun _ => "n".toList) _ (.mk [] [])
      (.mk [.exprStmt (.ident "x")]) (.exprStmt (.ident "x")) [] (.ident "a") .nilNode
      rfl).2.1 rfl rfl,
   (getReturnStmtCompositeLit_offending_node (fun _ => "n".toList) _ (.mk [] [])
      (.mk [.returnStmt [.ident "a", .ident "b"]]) (.exprStmt (.ident "x"))
      [.ident "a", .ident "b"] (.ident "a") .nilNode rfl).2.2.1 rfl (by decide),
   (getReturnStmtCompositeLit_offending_node (fun _ => "n".toList) _ (.mk [] [])
      (.mk [.returnStmt [.ident "a"]]) (.exprStmt (.ident "x")) [] (.ident "a") .nilNode
      rfl).2.2.2.1 rfl rfl,
   (getReturnStmtCompositeLit_offending_node (fun _ => "n".toList)
      ⟨.parenExpr (.funcLit (.mk [] []) (.mk [])), []⟩ (.mk [] []) (.mk [])
      (.exprStmt (.ident "x")) [] (.ident "a") .nilNode rfl).2.2.2.2⟩

/-! ### Decimal numerals -/

theorem digitChar_isDigit : ∀ d, d < 10 → (Nat.digitChar d).isDigit = true := by decide

theorem isWordChar_of_isDigit {c : Char} (h : c.isDigit = true) : isWordChar c = true := by
  simp [isWordChar, Char.isAlphanum, h]

theorem ne_O_of_isDigit {c : Char} (h : c.isDigit = true) : c ≠ 'O' := by
  rintro rfl
  exact absurd h (by decide)

theorem toDigitsCore_digits : ∀ (fuel n : Nat) (ds : List Char),
    (∀ c ∈ ds, c.isDigit = true) → ∀ c ∈ Nat.toDigitsCore 10 fuel n ds, c.isDigit = true := by
  intro fuel
  induction fuel with
  | zero => intro n ds h; simpa [Nat.toDigitsCore] using h
  | succ fuel ih =>
    intro n ds h
    have hd : (Nat.digitChar (n % 10)).isDigit = true :=
      digitChar_isDigit _ (Nat.mod_lt _ (by decide))
    have h2 : ∀ c ∈ Nat.digitChar (n % 10) :: ds, c.isDigit = true := by
      intro c hc
      rcases List.mem_cons.1 hc with rfl | hc
      · exact hd
      · exact h c hc
    simp only [Nat.toDigitsCore]
    split
    · exact h2
    · exact ih _ _ h2

theorem decimal_digits (n : Nat) : ∀ c ∈ decimal n, c.isDigit = true :=
  toDigitsCore_digits _ _ [] (by simp)

theorem toDigitsCore_ne_nil : ∀ (fuel n : Nat) (ds : List Char),
    (fuel = 0 → ds ≠ []) → Nat.toDigitsCore 10 fuel n ds ≠ [] := by
  intro fuel
  induction fuel with
  | zero => intro n ds h; simpa [Nat.toDigitsCore] using h rfl
  | succ fuel ih =>
    intro n ds _
    simp only [Nat.toDigitsCore]
    split
    · simp
    · exact ih _ _ (fun _ => by simp)

theorem decimal_ne_nil (n : Nat) : decimal n ≠ [] :=
  toDigitsCore_ne_nil _ _ [] (by simp)

theorem digitChar_toNat : ∀ d, d < 10 → (Nat.digitChar d).toNat - 48 = d := by decide

theorem toDigitsCore_value : ∀ (fuel n : Nat) (ds : List Char), n < fuel →
    ∃ xs, Nat.toDigitsCore 10 fuel n ds = xs ++ ds ∧ digitsValue xs = n := by
  intro fuel
  induction fuel with
  | zero => intro n ds h; omega
  | succ fuel ih =>
    intro n ds h
    simp only [Nat.toDigitsCore]
    split
    · rename_i h0
      refine ⟨[Nat.digitChar (n % 10)], rfl, ?_⟩
      have h10 : n % 10 = n := by omega
      have hd := digitChar_toNat _ (Nat.mod_lt n (by decide : 0 < 10))
      simp only [digitsValue, List.foldl_cons, List.foldl_nil, hd]
      omega
    · rename_i h0
      obtain ⟨xs, hxs, hv⟩ := ih (n / 10) (Nat.digitChar (n % 10) :: ds) (by omega)
      refine ⟨xs ++ [Nat.digitChar (n % 10)], by simp [hxs], ?_⟩
      simp only [digitsValue, List.foldl_append, List.foldl_cons, List.foldl_nil]
      simp only [digitsValue] at hv
      rw [hv, digitChar_toNat _ (Nat.mod_lt n (by decide))]
      omega

theorem digitsValue_decimal (n : Nat) : digitsValue (decimal n) = n := by
  obtain ⟨xs, hxs, hv⟩ := toDigitsCore_value (n + 1) n [] (by omega)
  simp only [List.append_nil] at hxs
  rw [decimal, Nat.toDigits, hxs, hv]

theorem decimal_injective {n m : Nat} (h : decimal n = decimal m) : n = m := by
  rw [← digitsValue_decimal n, ← digitsValue_decimal m, h]

/-! ### Texts, literals and word boundaries -/

theorem stripLit_eq_some (lit s r : List Char) : stripLit lit s = some r ↔ s = lit ++ r := by
  induction lit generalizing s with
  | nil => simp [stripLit, eq_comm]
  | cons a lit ih =>
    cases s with
    | nil => simp [stripLit]
    | cons c cs =>
      simp only [stripLit, List.cons_append, List.cons.injEq]
      by_cases h : a = c
      · simp [h, ih]
      · simp [h, eq_comm]

theorem lastIsWord_append (pw : Bool) (u v : List Char) :
    lastIsWord pw (u ++ v) = lastIsWord (lastIsWord pw u) v := by
  induction u generalizing pw with
  | nil => rfl
  | cons c u ih => simp [lastIsWord, ih]

theorem lastIsWord_of_word (pw : Bool) (u : List Char) (hne : u ≠ [])
    (hu : ∀ c ∈ u, isWordChar c = true) : lastIsWord pw u = true := by
  induction u generalizing pw with
  | nil => exact absurd rfl hne
  | cons c u ih =>
    cases u with
    | nil => simpa [lastIsWord] using hu c (by simp)
    | cons d u =>
      rw [lastIsWord]
      exact ih _ (by simp) (fun x hx => hu x (List.mem_cons_of_mem _ hx))

theorem headIsWord_append (u v : List Char) (hne : u ≠ []) :
    headIsWord (u ++ v) = headIsWord u := by
  cases u with
  | nil => exact absurd rfl hne
  | cons c u => rfl

theorem decimal_word (n : Nat) : ∀ c ∈ decimal n, isWordChar c = true :=
  fun c hc => isWordChar_of_isDigit (decimal_digits n c hc)

theorem lastIsWord_opPattern (pw : Bool) (n : Nat) : lastIsWord pw (opPattern n) = true := by
  rw [opPattern, lastIsWord_append]
  exact lastIsWord_of_word _ _ (decimal_ne_nil n) (decimal_word n)

theorem opPattern_cons (n : Nat) : opPattern n = 'O' :: ('p' :: ':' :: ' ' :: decimal n) := rfl

theorem O_not_mem_tail (n : Nat) : 'O' ∉ ('p' :: ':' :: ' ' :: decimal n) := by
  intro h
  simp only [List.mem_cons] at h
  rcases h with h | h | h | h
  · exact absurd h (by decide)
  · exact absurd h (by decide)
  · exact absurd h (by decide)
  · exact ne_O_of_isDigit (decimal_digits n _ h) rfl

/-- Two runs of word characters that end at a word boundary of the same text are equal. -/
theorem wordRun_unique : ∀ (u v r r' : List Char), (∀ c ∈ u, isWordChar c = true) →
    (∀ c ∈ v, isWordChar c = true) → headIsWord r = false → headIsWord r' = false →
    u ++ r = v ++ r' → u = v ∧ r = r' := by
  intro u
  induction u with
  | nil =>
    intro v r r' _ hv hr _ h
    cases v with
    | nil => exact ⟨rfl, h⟩
    | cons c v =>
      simp only [List.nil_append, List.cons_append] at h
      subst h
      rw [headIsWord, hv c (by simp)] at hr
      exact absurd hr (by decide)
  | cons a u ih =>
    intro v r r' hu hv hr hr' h
    cases v with
    | nil =>
      simp only [List.nil_append, List.cons_append] at h
      subst h
      rw [headIsWord, hu a (by simp)] at hr'
      exact absurd hr' (by decide)
    | cons c v =>
      simp only [List.cons_append, List.cons.injEq] at h
      obtain ⟨h1, h2⟩ := h
      obtain ⟨h3, h4⟩ := ih v r r' (fun x hx => hu x (List.mem_cons_of_mem _ hx))
        (fun x hx => hv x (List.mem_cons_of_mem _ hx)) hr hr' h2
      exact ⟨by rw [h1, h3], h4⟩

theorem matchLit_opPattern (n : Nat) (pw : Bool) (s : List Char) :
    matchLit (opPattern n) pw s = true ↔ ∃ rest, OccursAt n pw s rest := by
  constructor
  · intro h
    simp only [matchLit, Bool.and_eq_true] at h
    obtain ⟨h1, h2⟩ := h
    cases hs : stripLit (opPattern n) s with
    | none => simp [hs] at h2
    | some rest =>
      rw [hs] at h2
      simp only [lastIsWord_opPattern, wordBoundary] at h2
      have hs2 := (stripLit_eq_some _ _ _).1 hs
      refine ⟨rest, ?_, hs2, ?_⟩
      · rw [hs2, opPattern_cons] at h1
        simpa [wordBoundary, headIsWord, isWordChar] using h1
      · simpa using h2
  · rintro ⟨rest, hpw, hs, hr⟩
    have hs2 := (stripLit_eq_some _ _ _).2 hs
    have hh : headIsWord s = true := by rw [hs, opPattern_cons]; rfl
    simp [matchLit, hs2, lastIsWord_opPattern, wordBoundary, hr, hpw, hh]

theorem OccursAt.unique {n m : Nat} {pw : Bool} {s r r' : List Char}
    (h : OccursAt n pw s r) (h' : OccursAt m pw s r') : n = m ∧ r = r' := by
  obtain ⟨_, hs, hr⟩ := h
  obtain ⟨_, hs', hr'⟩ := h'
  rw [hs] at hs'
  simp only [opPattern, List.append_assoc, List.append_cancel_left_eq] at hs'
  obtain ⟨h1, h2⟩ := wordRun_unique _ _ _ _ (decimal_word n) (decimal_word m) hr hr' hs'
  exact ⟨decimal_injective h1, h2⟩

/-! ### The single scan -/

theorem symbolScan_nil (ops : Operators) (ns : List Nat) (k : Nat) (pw : Bool) :
    symbolScan ops ns k pw [] = [] := by
  cases k <;> rfl

theorem symbolScan_skip (ops : Operators) (ns : List Nat) :
    ∀ (s : List Char) (k : Nat) (pw : Bool),
      symbolScan ops ns k pw s = symbolScan ops ns 0 (lastIsWord pw (s.take k)) (s.drop k) := by
  intro s
  induction s with
  | nil => intro k pw; simp [symbolScan_nil]
  | cons c cs ih =>
    intro k pw
    cases k with
    | zero => rfl
    | succ k =>
      rw [symbolScan, ih k]
      rfl

theorem symbolScan_copy (ops : Operators) (ns : List Nat) (pw : Bool) (c : Char)
    (cs : List Char) (h : ∀ n ∈ ns, matchLit (opPattern n) pw (c :: cs) = false) :
    symbolScan ops ns 0 pw (c :: cs) = c :: symbolScan ops ns 0 (isWordChar c) cs := by
  have hf : ns.find? (fun n => matchLit (opPattern n) pw (c :: cs)) = none :=
    List.find?_eq_none.2 (fun n hn => by simp [h n hn])
  rw [symbolScan, hf]

theorem symbolScan_occurs (ops : Operators) (ns : List Nat) (n : Nat) (pw : Bool)
    (s rest : List Char) (hn : n ∈ ns) (h : OccursAt n pw s rest) :
    symbolScan ops ns 0 pw s = opReplacement ops n ++ symbolScan ops ns 0 true rest := by
  have hs : s = 'O' :: (('p' :: ':' :: ' ' :: decimal n) ++ rest) := h.2.1
  cases hf : ns.find? (fun m => matchLit (opPattern m) pw s) with
  | none =>
    have := List.find?_eq_none.1 hf n hn
    exact absurd ((matchLit_opPattern n pw _).2 ⟨rest, h⟩) (by simpa using this)
  | some m =>
    have hm := List.find?_some hf
    simp only at hm
    obtain ⟨r', hr'⟩ := (matchLit_opPattern m pw _).1 hm
    obtain ⟨hmn, -⟩ := hr'.unique h
    subst hmn
    rw [hs] at hf ⊢
    rw [symbolScan, hf]
    dsimp only
    rw [symbolScan_skip ops ns _ ((opPattern m).length - 1)]
    have hlen : (opPattern m).length - 1 = ('p' :: ':' :: ' ' :: decimal m).length := by
      simp [opPattern_cons]
    rw [hlen, List.take_left', List.drop_left']
    · have hl := lastIsWord_opPattern pw m
      rw [opPattern_cons, lastIsWord] at hl
      rw [hl]
    · rfl
    · rfl

theorem matchLit_head_ne (n : Nat) (pw : Bool) (c : Char) (cs : List Char) (hc : c ≠ 'O') :
    matchLit (opPattern n) pw (c :: cs) = false := by
  cases h : matchLit (opPattern n) pw (c :: cs) with
  | false => rfl
  | true =>
    obtain ⟨rest, -, hs, -⟩ := (matchLit_opPattern n pw _).1 h
    rw [opPattern_cons] at hs
    exact absurd (List.cons.inj hs).1 hc

theorem matchLit_prev_word (n : Nat) (s : List Char) :
    matchLit (opPattern n) true s = false := by
  cases h : matchLit (opPattern n) true s with
  | false => rfl
  | true =>
    obtain ⟨rest, hpw, -, -⟩ := (matchLit_opPattern n true _).1 h
    exact absurd hpw (by decide)

theorem ne_O_of_not_word {c : Char} (h : isWordChar c = false) : c ≠ 'O' := by
  rintro rfl
  exact absurd h (by decide)

/-- Either an ordinal of `ns` occurs at the head of the text, or none matches there. -/
theorem occurs_or_none (ns : List Nat) (pw : Bool) (s : List Char) :
    (∃ n ∈ ns, ∃ rest, OccursAt n pw s rest) ∨
      ∀ n ∈ ns, matchLit (opPattern n) pw s = false := by
  by_cases h : ∃ n ∈ ns, matchLit (opPattern n) pw s = true
  · obtain ⟨n, hn, hm⟩ := h
    exact .inl ⟨n, hn, (matchLit_opPattern n pw s).1 hm⟩
  · refine .inr (fun n hn => ?_)
    cases hm : matchLit (opPattern n) pw s with
    | false => rfl
    | true => exact absurd ⟨n, hn, hm⟩ h

theorem symbolScan_no_O (ops : Operators) (ns : List Nat) :
    ∀ (u rest : List Char) (pw : Bool), 'O' ∉ u →
      symbolScan ops ns 0 pw (u ++ rest) = u ++ symbolScan ops ns 0 (lastIsWord pw u) rest := by
  intro u
  induction u with
  | nil => intro rest pw _; rfl
  | cons c u ih =>
    intro rest pw h
    simp only [List.mem_cons, not_or] at h
    rw [List.cons_append, symbolScan_copy _ _ _ _ _
      (fun n _ => matchLit_head_ne n pw c _ (Ne.symm h.1)), ih rest _ h.2]
    rfl

theorem headIsWord_symbolScan (ops : Operators) (ns : List Nat) (pw : Bool) (rest : List Char)
    (h : headIsWord rest = false) : headIsWord (symbolScan ops ns 0 pw rest) = false := by
  cases rest with
  | nil => rw [symbolScan_nil]; rfl
  | cons c cs =>
    rw [symbolScan_copy _ _ _ _ _ (fun n _ => matchLit_head_ne n pw c _ (ne_O_of_not_word h))]
    exact h

theorem symbolScan_prev_irrelevant (ops : Operators) (ns : List Nat) (pw pw' : Bool)
    (rest : List Char) (h : headIsWord rest = false) :
    symbolScan ops ns 0 pw rest = symbolScan ops ns 0 pw' rest := by
  cases rest with
  | nil => rw [symbolScan_nil, symbolScan_nil]
  | cons c cs =>
    rw [symbolScan_copy _ _ _ _ _ (fun n _ => matchLit_head_ne n pw c _ (ne_O_of_not_word h)),
      symbolScan_copy _ _ _ _ _ (fun n _ => matchLit_head_ne n pw' c _ (ne_O_of_not_word h))]

theorem opReplacement_cons (ops : Operators) (n : Nat) :
    opReplacement ops n = 'O' :: ('p' :: ':' :: ' ' :: ops.GoString n) := rfl

theorem headIsWord_of_symbolScan (ops : Operators) (ns : List Nat) (pw : Bool) (t : List Char)
    (h : headIsWord (symbolScan ops ns 0 pw t) = false) : headIsWord t = false := by
  cases t with
  | nil => rfl
  | cons c cs =>
    rcases occurs_or_none ns pw (c :: cs) with ⟨n, hn, rest, ho⟩ | hnone
    · rw [symbolScan_occurs ops ns n pw _ rest hn ho, opReplacement_cons] at h
      simp [headIsWord, isWordChar] at h
    · rw [symbolScan_copy _ _ _ _ _ hnone] at h
      exact h

theorem symbolScan_inv (ops : Operators) (ns : List Nat) :
    ∀ (u s o : List Char) (pw : Bool), 'O' ∉ u → symbolScan ops ns 0 pw s = u ++ o →
      ∃ t, s = u ++ t ∧ o = symbolScan ops ns 0 (lastIsWord pw u) t := by
  intro u
  induction u with
  | nil => intro s o pw _ h; exact ⟨s, rfl, h.symm⟩
  | cons a u ih =>
    intro s o pw hu h
    simp only [List.mem_cons, not_or] at hu
    cases s with
    | nil => rw [symbolScan_nil] at h; exact absurd h (by simp)
    | cons c cs =>
      rcases occurs_or_none ns pw (c :: cs) with ⟨n, hn, rest, ho⟩ | hnone
      · rw [symbolScan_occurs ops ns n pw _ rest hn ho, opReplacement_cons] at h
        exact absurd (List.cons.inj h).1 hu.1
      · rw [symbolScan_copy _ _ _ _ _ hnone] at h
        obtain ⟨h1, h2⟩ := List.cons.inj h
        obtain ⟨t, ht, ho⟩ := ih cs o (isWordChar c) hu.2 h2
        exact ⟨t, by rw [h1, ht]; rfl, by rw [ho, h1]; rfl⟩

/-- The scan creates no match: if `Op: k` matches at a character followed by the scanned
rest, it matches at that character followed by the rest itself. -/
theorem matchLit_of_symbolScan (ops : Operators) (ns : List Nat) (k : Nat) (pw : Bool) (c : Char)
    (cs : List Char)
    (h : matchLit (opPattern k) pw (c :: symbolScan ops ns 0 (isWordChar c) cs) = true) :
    matchLit (opPattern k) pw (c :: cs) = true := by
  obtain ⟨rest, hpw, hs, hr⟩ := (matchLit_opPattern k pw _).1 h
  rw [opPattern_cons, List.cons_append] at hs
  obtain ⟨hc, hs2⟩ := List.cons.inj hs
  obtain ⟨t, ht, hrest⟩ := symbolScan_inv ops ns _ cs rest _ (O_not_mem_tail k) hs2
  refine (matchLit_opPattern k pw _).2 ⟨t, hpw, ?_, ?_⟩
  · rw [hc, ht]; rfl
  · rw [hrest] at hr
    exact headIsWord_of_symbolScan ops ns _ t hr

/-! ### Symbolic names -/

theorem isSymbolicName_spec {w : List Char} (h : isSymbolicName w = true) :
    w ≠ [] ∧ (∀ c ∈ w, isWordChar c = true) ∧ (∀ c, w.head? = some c → c.isDigit = false) ∧
      w ≠ ['O', 'p'] := by
  simp only [isSymbolicName, Bool.and_eq_true, Bool.not_eq_true', List.all_eq_true,
    List.isEmpty_eq_false, beq_eq_false_iff_ne] at h
  obtain ⟨⟨⟨h1, h2⟩, h3⟩, h4⟩ := h
  refine ⟨fun h => by simp [h] at h1, h2, ?_, h4⟩
  intro c hc
  rw [hc] at h3
  simpa using h3

theorem not_occurs_replacement (ops : Operators) (n m : Nat) (pw : Bool) (rest r : List Char)
    (hsym : isSymbolicName (ops.GoString n) = true) :
    ¬ OccursAt m pw (opReplacement ops n ++ rest) r := by
  rintro ⟨-, hs, -⟩
  obtain ⟨hne, -, hd, -⟩ := isSymbolicName_spec hsym
  simp only [opReplacement, opPattern, List.append_assoc, List.append_cancel_left_eq] at hs
  cases hw : ops.GoString n with
  | nil => exact hne hw
  | cons c w =>
    cases hm : decimal m with
    | nil => exact decimal_ne_nil m hm
    | cons d ds =>
      rw [hw, hm] at hs
      have hcd := (List.cons.inj hs).1
      have h1 := hd c (by rw [hw]; rfl)
      have h2 := decimal_digits m d (by rw [hm]; simp)
      rw [hcd, h2] at h1
      exact absurd h1 (by decide)

theorem not_occurs_name (w : List Char) (m : Nat) (pw : Bool) (rest r : List Char)
    (hsym : isSymbolicName w = true) (hrest : headIsWord rest = false) :
    ¬ OccursAt m pw (w ++ rest) r := by
  rintro ⟨-, hs, -⟩
  obtain ⟨hne, hword, -, hOp⟩ := isSymbolicName_spec hsym
  rw [opPattern_cons] at hs
  rcases w with _ | ⟨c0, _ | ⟨c1, _ | ⟨c2, w⟩⟩⟩
  · exact hne rfl
  · simp only [List.cons_append, List.nil_append, List.cons.injEq] at hs
    rw [hs.2] at hrest
    simp [headIsWord, isWordChar] at hrest
  · simp only [List.cons_append, List.nil_append, List.cons.injEq] at hs
    exact hOp (by rw [hs.1, hs.2.1])
  · simp only [List.cons_append, List.cons.injEq] at hs
    have := hword c2 (by simp)
    rw [hs.2.2.1] at this
    exact absurd this (by decide)

theorem symbolScan_wordRun (ops : Operators) (ns : List Nat) :
    ∀ (w rest : List Char), (∀ c ∈ w, isWordChar c = true) →
      symbolScan ops ns 0 true (w ++ rest) = w ++ symbolScan ops ns 0 true rest := by
  intro w
  induction w with
  | nil => intro rest _; rfl
  | cons c w ih =>
    intro rest h
    rw [List.cons_append, symbolScan_copy _ _ _ _ _ (fun n _ => matchLit_prev_word n _),
      h c (by simp), ih rest (fun x hx => h x (List.mem_cons_of_mem _ hx))]
    rfl

/-- The scan copies a symbolic name that stands after a non-word character and before a
word boundary. -/
theorem symbolScan_name (ops : Operators) (ns : List Nat) (w rest : List Char)
    (hsym : isSymbolicName w = true) (hrest : headIsWord rest = false) :
    symbolScan ops ns 0 false (w ++ rest) = w ++ symbolScan ops ns 0 true rest := by
  have h1 : ∀ m ∈ ns, matchLit (opPattern m) false (w ++ rest) = false := by
    intro m _
    cases hm : matchLit (opPattern m) false (w ++ rest) with
    | false => rfl
    | true =>
      obtain ⟨r, hr⟩ := (matchLit_opPattern m false _).1 hm
      exact absurd hr (not_occurs_name _ m false rest r hsym hrest)
  obtain ⟨hne, hword, -, -⟩ := isSymbolicName_spec hsym
  cases w with
  | nil => exact absurd rfl hne
  | cons c w =>
    rw [List.cons_append] at h1 ⊢
    rw [symbolScan_copy _ _ _ _ _ h1, hword c (by simp),
      symbolScan_wordRun ops ns w rest (fun x hx => hword x (List.mem_cons_of_mem _ hx))]
    rfl

/-- The scan copies a replacement `Op: name` that is followed by a word boundary. -/
theorem symbolScan_replacement (ops : Operators) (ns : List Nat) (n : Nat) (pw : Bool)
    (rest : List Char) (hsym : isSymbolicName (ops.GoString n) = true)
    (hrest : headIsWord rest = false) :
    symbolScan ops ns 0 pw (opReplacement ops n ++ rest) =
      opReplacement ops n ++ symbolScan ops ns 0 true rest := by
  have h0 : ∀ m ∈ ns, matchLit (opPattern m) pw (opReplacement ops n ++ rest) = false := by
    intro m _
    cases hm : matchLit (opPattern m) pw (opReplacement ops n ++ rest) with
    | false => rfl
    | true =>
      obtain ⟨r, hr⟩ := (matchLit_opPattern m pw _).1 hm
      exact absurd hr (not_occurs_replacement ops n m pw rest r hsym)
  have h3 : opReplacement ops n ++ rest
      = 'O' :: (['p', ':', ' '] ++ (ops.GoString n ++ rest)) := rfl
  rw [h3] at h0
  rw [h3, symbolScan_copy _ _ _ _ _ h0, symbolScan_no_O ops ns _ _ _ (by decide)]
  have h4 : lastIsWord (isWordChar 'O') ['p', ':', ' '] = false := by decide
  rw [h4, symbolScan_name ops ns _ rest hsym hrest]
  simp [opReplacement]

/-! ### The loop is the single scan -/

theorem replaceAllFrom_eq_symbolScan (ops : Operators) (k : Nat) :
    ∀ (s : List Char) (skip : Nat) (pw : Bool),
      replaceAllFrom (opPattern k) (opReplacement ops k) skip pw s
        = symbolScan ops [k] skip pw s := by
  intro s
  induction s with
  | nil => intro skip pw; cases skip <;> rfl
  | cons c cs ih =>
    intro skip pw
    cases skip with
    | succ skip => rw [replaceAllFrom, symbolScan, ih]
    | zero =>
      rw [replaceAllFrom, symbolScan]
      cases hm : matchLit (opPattern k) pw (c :: cs) <;> simp [List.find?, hm, ih]

theorem symbolizeStep_eq_symbolScan (ops : Operators) (k : Nat) (s : List Char) :
    symbolizeStep ops s k = symbolScan ops [k] 0 false s :=
  replaceAllFrom_eq_symbolScan ops k s 0 false

theorem symbolScan_no_ordinal (ops : Operators) :
    ∀ (s : List Char) (pw : Bool), symbolScan ops [] 0 pw s = s := by
  intro s
  induction s with
  | nil => intro pw; rfl
  | cons c cs ih =>
    intro pw
    rw [symbolScan_copy _ _ _ _ _ (fun n hn => absurd hn (List.not_mem_nil n)), ih]

theorem OccursAt.length_lt {n : Nat} {pw : Bool} {s rest : List Char}
    (h : OccursAt n pw s rest) : rest.length < s.length := by
  rw [h.2.1, opPattern_cons]
  simp only [List.cons_append, List.length_cons, List.length_append]
  omega

/-- Scanning for `k` after scanning for the ordinals `ns` is scanning for all of them. -/
theorem symbolScan_fuse (ops : Operators) (ns : List Nat) (k : Nat)
    (hns : ∀ n ∈ ns, isSymbolicName (ops.GoString n) = true) :
    ∀ (len : Nat) (s : List Char) (pw : Bool), s.length ≤ len →
      symbolScan ops [k] 0 pw (symbolScan ops ns 0 pw s) = symbolScan ops (ns ++ [k]) 0 pw s := by
  intro len
  induction len with
  | zero =>
    intro s pw h
    have : s = [] := List.length_eq_zero.1 (Nat.le_zero.1 h)
    subst this
    rfl
  | succ len ih =>
    intro s pw hlen
    cases s with
    | nil => rfl
    | cons c cs =>
      rcases occurs_or_none ns pw (c :: cs) with ⟨n, hn, rest, ho⟩ | hnone
      · have hl := ho.length_lt
        rw [symbolScan_occurs ops ns n pw _ rest hn ho,
          symbolScan_replacement ops [k] n pw _ (hns n hn)
            (headIsWord_symbolScan ops ns true rest ho.2.2),
          ih rest true (by omega),
          symbolScan_occurs ops (ns ++ [k]) n pw _ rest (List.mem_append_left _ hn) ho]
      · rcases occurs_or_none [k] pw (c :: cs) with ⟨k', hk', rest, ho⟩ | hk
        · obtain rfl : k' = k := by simpa using hk'
          have hl := ho.length_lt
          have hs : c :: cs = 'O' :: (('p' :: ':' :: ' ' :: decimal k') ++ rest) := ho.2.1
          have hinner : symbolScan ops ns 0 pw (c :: cs)
              = opPattern k' ++ symbolScan ops ns 0 true rest := by
            rw [symbolScan_copy _ _ _ _ _ hnone, (List.cons.inj hs).2,
              symbolScan_no_O ops ns _ _ _ (O_not_mem_tail k'), (List.cons.inj hs).1]
            have hl := lastIsWord_opPattern false k'
            rw [opPattern_cons, lastIsWord] at hl
            rw [hl]
            rfl
          have ho2 : OccursAt k' pw (opPattern k' ++ symbolScan ops ns 0 true rest)
              (symbolScan ops ns 0 true rest) :=
            ⟨ho.1, rfl, headIsWord_symbolScan ops ns true rest ho.2.2⟩
          rw [hinner, symbolScan_occurs ops [k'] k' pw _ _ (by simp) ho2, ih rest true (by omega),
            symbolScan_occurs ops (ns ++ [k']) k' pw _ rest (by simp) ho]
        · have hk0 : matchLit (opPattern k) pw (c :: cs) = false := hk k (by simp)
          have hk1 : ∀ m ∈ [k],
              matchLit (opPattern m) pw (c :: symbolScan ops ns 0 (isWordChar c) cs) = false := by
            intro m hm
            obtain rfl : m = k := by simpa using hm
            cases h : matchLit (opPattern m) pw (c :: symbolScan ops ns 0 (isWordChar c) cs) with
            | false => rfl
            | true =>
              rw [matchLit_of_symbolScan ops ns m pw c cs h] at hk0
              exact absurd hk0 (by decide)
          have hall : ∀ m ∈ ns ++ [k], matchLit (opPattern m) pw (c :: cs) = false := by
            intro m hm
            rcases List.mem_append.1 hm with h | h
            · exact hnone m h
            · exact hk m h
          rw [symbolScan_copy _ _ _ _ _ hnone, symbolScan_copy _ _ _ _ _ hk1,
            symbolScan_copy _ _ _ _ _ hall, ih cs _ (by simpa using hlen)]

/-- Folding the passes over a list of ordinals is the single scan for that list. -/
theorem foldl_symbolizeStep (ops : Operators) :
    ∀ (ns : List Nat), (∀ n ∈ ns, isSymbolicName (ops.GoString n) = true) →
      ∀ s : List Char, ns.foldl (symbolizeStep ops) s = symbolScan ops ns 0 false s := by
  intro ns
  induction ns using List.reverseRecOn with
  | nil => intro _ s; exact (symbolScan_no_ordinal ops s false).symm
  | append_singleton ns k ih =>
    intro h s
    have hns : ∀ n ∈ ns, isSymbolicName (ops.GoString n) = true :=
      fun n hn => h n (List.mem_append_left _ hn)
    rw [List.foldl_append, List.foldl_cons, List.foldl_nil, ih hns, symbolizeStep_eq_symbolScan,
      symbolScan_fuse ops ns k hns _ s false (Nat.le_refl _)]

/-- The loop of `printCompositeLit` is the single scan over the ordinals of the range, when
the operator names are symbolic names. -/
theorem symbolize_eq_symbolScan (ops : Operators)
    (hsym : ∀ n ∈ opRange ops, isSymbolicName (ops.GoString n) = true) (s : List Char) :
    symbolize ops s = symbolScan ops (opRange ops) 0 false s :=
  foldl_symbolizeStep ops _ hsym s

theorem mem_opRange (ops : Operators) (n : Nat) :
    n ∈ opRange ops ↔ ops.OpAdd ≤ n ∧ n ≤ ops.OpAlt := by
  simp only [opRange, List.mem_range'_1]
  omega

/-! ### Bare ordinals in the scanned text -/

theorem hasBareOrdinal_copy (ns : List Nat) (pw : Bool) (c : Char) (cs : List Char)
    (h : ∀ n ∈ ns, matchLit (opPattern n) pw (c :: cs) = false) :
    hasBareOrdinal ns pw (c :: cs) = hasBareOrdinal ns (isWordChar c) cs := by
  have : ns.any (fun n => matchLit (opPattern n) pw (c :: cs)) = false := by
    rw [List.any_eq_false]
    intro n hn
    simp [h n hn]
  rw [hasBareOrdinal, this, Bool.false_or]

theorem hasBareOrdinal_no_O (ns : List Nat) :
    ∀ (u rest : List Char) (pw : Bool), 'O' ∉ u →
      hasBareOrdinal ns pw (u ++ rest) = hasBareOrdinal ns (lastIsWord pw u) rest := by
  intro u
  induction u with
  | nil => intro rest pw _; rfl
  | cons c u ih =>
    intro rest pw h
    simp only [List.mem_cons, not_or] at h
    rw [List.cons_append, hasBareOrdinal_copy _ _ _ _
      (fun n _ => matchLit_head_ne n pw c _ (Ne.symm h.1)), ih rest _ h.2]
    rfl

theorem hasBareOrdinal_wordRun (ns : List Nat) :
    ∀ (w rest : List Char), (∀ c ∈ w, isWordChar c = true) →
      hasBareOrdinal ns true (w ++ rest) = hasBareOrdinal ns true rest := by
  intro w
  induction w with
  | nil => intro rest _; rfl
  | cons c w ih =>
    intro rest h
    rw [List.cons_append, hasBareOrdinal_copy _ _ _ _ (fun n _ => matchLit_prev_word n _),
      h c (by simp), ih rest (fun x hx => h x (List.mem_cons_of_mem _ hx))]

/-- A replacement `Op: name` followed by a word boundary holds no bare ordinal. -/
theorem hasBareOrdinal_replacement (ops : Operators) (ns : List Nat) (n : Nat) (pw : Bool)
    (rest : List Char) (hsym : isSymbolicName (ops.GoString n) = true)
    (hrest : headIsWord rest = false) :
    hasBareOrdinal ns pw (opReplacement ops n ++ rest) = hasBareOrdinal ns true rest := by
  have h0 : ∀ m ∈ ns, matchLit (opPattern m) pw (opReplacement ops n ++ rest) = false := by
    intro m _
    cases hm : matchLit (opPattern m) pw (opReplacement ops n ++ rest) with
    | false => rfl
    | true =>
      obtain ⟨r, hr⟩ := (matchLit_opPattern m pw _).1 hm
      exact absurd hr (not_occurs_replacement ops n m pw rest r hsym)
  have h1 : ∀ m ∈ ns, matchLit (opPattern m) false (ops.GoString n ++ rest) = false := by
    intro m _
    cases hm : matchLit (opPattern m) false (ops.GoString n ++ rest) with
    | false => rfl
    | true =>
      obtain ⟨r, hr⟩ := (matchLit_opPattern m false _).1 hm
      exact absurd hr (not_occurs_name _ m false rest r hsym hrest)
  obtain ⟨hne, hword, -, -⟩ := isSymbolicName_spec hsym
  have h3 : opReplacement ops n ++ rest
      = 'O' :: (['p', ':', ' '] ++ (ops.GoString n ++ rest)) := rfl
  rw [h3] at h0
  rw [h3, hasBareOrdinal_copy _ _ _ _ h0, hasBareOrdinal_no_O ns _ _ _ (by decide)]
  have h4 : lastIsWord (isWordChar 'O') ['p', ':', ' '] = false := by decide
  rw [h4]
  cases hw : ops.GoString n with
  | nil => exact absurd hw hne
  | cons c w =>
    rw [hw] at h1 hword
    rw [List.cons_append] at h1 ⊢
    rw [hasBareOrdinal_copy _ _ _ _ h1, hword c (by simp),
      hasBareOrdinal_wordRun ns w rest (fun x hx => hword x (List.mem_cons_of_mem _ hx))]

/-- The scanned text holds no bare ordinal of `ns`. -/
theorem hasBareOrdinal_symbolScan (ops : Operators) (ns : List Nat)
    (hns : ∀ n ∈ ns, isSymbolicName (ops.GoString n) = true) :
    ∀ (len : Nat) (s : List Char) (pw : Bool), s.length ≤ len →
      hasBareOrdinal ns pw (symbolScan ops ns 0 pw s) = false := by
  intro len
  induction len with
  | zero =>
    intro s pw h
    have : s = [] := List.length_eq_zero.1 (Nat.le_zero.1 h)
    subst this
    rfl
  | succ len ih =>
    intro s pw hlen
    cases s with
    | nil => rfl
    | cons c cs =>
      rcases occurs_or_none ns pw (c :: cs) with ⟨n, hn, rest, ho⟩ | hnone
      · have hl := ho.length_lt
        rw [symbolScan_occurs ops ns n pw _ rest hn ho,
          hasBareOrdinal_replacement ops ns n pw _ (hns n hn)
            (headIsWord_symbolScan ops ns true rest ho.2.2)]
        exact ih rest true (by omega)
      · have h1 : ∀ m ∈ ns,
            matchLit (opPattern m) pw (c :: symbolScan ops ns 0 (isWordChar c) cs) = false := by
          intro m hm
          cases h : matchLit (opPattern m) pw (c :: symbolScan ops ns 0 (isWordChar c) cs) with
          | false => rfl
          | true =>
            have := hnone m hm
            rw [matchLit_of_symbolScan ops ns m pw c cs h] at this
            exact absurd this (by decide)
        rw [symbolScan_copy _ _ _ _ _ hnone, hasBareOrdinal_copy _ _ _ _ h1]
        exact ih cs _ (by simpa using hlen)

/-- A word-bounded `Op: n` somewhere in a text, for an `n` of `ns`, is a bare ordinal. -/
theorem hasBareOrdinal_of_occurrence (ns : List Nat) (n : Nat) (hn : n ∈ ns) :
    ∀ (pre post : List Char) (pw : Bool), lastIsWord pw pre = false → headIsWord post = false →
      hasBareOrdinal ns pw (pre ++ opPattern n ++ post) = true := by
  intro pre
  induction pre with
  | nil =>
    intro post pw hpw hpost
    have hm : matchLit (opPattern n) pw (opPattern n ++ post) = true :=
      (matchLit_opPattern n pw _).2 ⟨post, hpw, rfl, hpost⟩
    have hs : [] ++ opPattern n ++ post = 'O' :: (('p' :: ':' :: ' ' :: decimal n) ++ post) := rfl
    rw [hs, hasBareOrdinal, Bool.or_eq_true]
    left
    rw [List.any_eq_true]
    exact ⟨n, hn, hm⟩
  | cons c pre ih =>
    intro post pw hpw hpost
    rw [List.cons_append, List.cons_append, hasBareOrdinal, Bool.or_eq_true]
    right
    exact ih post _ hpw hpost

/-! ### The scan of a text around an occurrence -/

/-- A text without `O` that starts a text cannot reach an `O` further on. -/
theorem prefix_of_no_O : ∀ (u r cs t : List Char), 'O' ∉ u → u ++ r = cs ++ 'O' :: t →
    ∃ a, cs = u ++ a ∧ r = a ++ 'O' :: t := by
  intro u
  induction u with
  | nil => intro r cs t _ h; exact ⟨cs, rfl, h⟩
  | cons a u ih =>
    intro r cs t hu h
    simp only [List.mem_cons, not_or] at hu
    cases cs with
    | nil =>
      simp only [List.cons_append, List.nil_append, List.cons.injEq] at h
      exact absurd h.1.symm hu.1
    | cons b cs =>
      simp only [List.cons_append, List.cons.injEq] at h
      obtain ⟨x, hx1, hx2⟩ := ih r cs t hu.2 h.2
      exact ⟨x, by rw [h.1, hx1]; rfl, hx2⟩

/-- The scan of a text that ends at a word boundary where `Op: n` occurs is the scan of the
part before followed by the scan of the rest. -/
theorem symbolScan_append_occurrence (ops : Operators) (ns : List Nat) (n : Nat)
    (post : List Char) :
    ∀ (len : Nat) (pre : List Char) (pw : Bool), pre.length ≤ len → lastIsWord pw pre = false →
      symbolScan ops ns 0 pw (pre ++ (opPattern n ++ post)) =
        symbolScan ops ns 0 pw pre ++ symbolScan ops ns 0 false (opPattern n ++ post) := by
  intro len
  induction len with
  | zero =>
    intro pre pw h hpw
    have : pre = [] := List.length_eq_zero.1 (Nat.le_zero.1 h)
    subst this
    have : pw = false := hpw
    subst this
    rfl
  | succ len ih =>
    intro pre pw hlen hpw
    cases pre with
    | nil =>
      have : pw = false := hpw
      subst this
      rfl
    | cons c cs =>
      have ht : opPattern n ++ post = 'O' :: (('p' :: ':' :: ' ' :: decimal n) ++ post) := rfl
      rcases occurs_or_none ns pw ((c :: cs) ++ (opPattern n ++ post)) with
        ⟨m, hm, r, ho⟩ | hnone
      · have hs : c :: (cs ++ (opPattern n ++ post))
            = 'O' :: (('p' :: ':' :: ' ' :: decimal m) ++ r) := ho.2.1
        obtain ⟨hc, hs2⟩ := List.cons.inj hs
        rw [ht] at hs2
        obtain ⟨a, ha1, ha2⟩ := prefix_of_no_O _ _ _ _ (O_not_mem_tail m) hs2.symm
        have hane : a ≠ [] := by
          rintro rfl
          have := ho.2.2
          rw [ha2] at this
          simp [headIsWord, isWordChar] at this
        have ha3 : headIsWord a = false := by
          have := ho.2.2
          rwa [ha2, headIsWord_append _ _ hane] at this
        have hpre : c :: cs = opPattern m ++ a := by rw [hc, ha1]; rfl
        have ho' : OccursAt m pw (c :: cs) a := ⟨ho.1, hpre, ha3⟩
        have hr : r = a ++ (opPattern n ++ post) := by rw [ha2, ht]
        have hl := ho'.length_lt
        have hpw' : lastIsWord true a = false := by
          rw [hpre, lastIsWord_append, lastIsWord_opPattern] at hpw
          exact hpw
        rw [symbolScan_occurs ops ns m pw _ r hm ho, symbolScan_occurs ops ns m pw _ a hm ho',
          hr, ih a true (by omega) hpw', List.append_assoc]
      · have hnone' : ∀ m ∈ ns, matchLit (opPattern m) pw (c :: cs) = false := by
          intro m hm
          cases h : matchLit (opPattern m) pw (c :: cs) with
          | false => rfl
          | true =>
            obtain ⟨a, ha⟩ := (matchLit_opPattern m pw _).1 h
            have hane : a ≠ [] := by
              rintro rfl
              rw [ha.2.1, List.append_nil, lastIsWord_opPattern] at hpw
              exact absurd hpw (by decide)
            have ho : OccursAt m pw ((c :: cs) ++ (opPattern n ++ post))
                (a ++ (opPattern n ++ post)) :=
              ⟨ha.1, by rw [ha.2.1, List.append_assoc],
                by rw [headIsWord_append _ _ hane]; exact ha.2.2⟩
            have := hnone m hm
            rw [(matchLit_opPattern m pw _).2 ⟨_, ho⟩] at this
            exact absurd this (by decide)
        rw [List.cons_append] at hnone ⊢
        rw [symbolScan_copy _ _ _ _ _ hnone, symbolScan_copy _ _ _ _ _ hnone',
          ih cs _ (by simpa using hlen) hpw]
        rfl

/-- The scan maps a text around a word-bounded `Op: n` piecewise: the part before, the
replacement, the part after. -/
theorem symbolScan_around (ops : Operators) (ns : List Nat) (n : Nat) (hn : n ∈ ns)
    (pre post : List Char) (hpre : lastIsWord false pre = false)
    (hpost : headIsWord post = false) :
    symbolScan ops ns 0 false (pre ++ opPattern n ++ post) =
      symbolScan ops ns 0 false pre ++ opReplacement ops n ++ symbolScan ops ns 0 false post := by
  rw [List.append_assoc, symbolScan_append_occurrence ops ns n post _ pre false
      (Nat.le_refl _) hpre,
    symbolScan_occurs ops ns n false _ post hn ⟨rfl, rfl, hpost⟩,
    symbolScan_prev_irrelevant ops ns true false post hpost, List.append_assoc]

/-! ### What the scan leaves unchanged -/

theorem joinSegments_cons_char (f : Nat → List Char) (c : Char) :
    ∀ (segs : List (List Char × Nat)) (closing : List Char),
      ∃ segs' closing', c :: joinSegments f segs closing = joinSegments f segs' closing' ∧
        (∀ g, c :: joinSegments g segs closing = joinSegments g segs' closing') ∧
        segs'.map Prod.snd = segs.map Prod.snd := by
  intro segs closing
  cases segs with
  | nil => exact ⟨[], c :: closing, rfl, fun _ => rfl, rfl⟩
  | cons seg segs =>
    obtain ⟨u, n⟩ := seg
    exact ⟨(c :: u, n) :: segs, closing, rfl, fun _ => rfl, rfl⟩

/-- The scanned text is the text with some occurrences of `Op: n`, for `n` of `ns`, replaced
by `Op: ` and the name of `n`; every other character stands unchanged in its place. -/
theorem symbolScan_segments (ops : Operators) (ns : List Nat) :
    ∀ (len : Nat) (s : List Char) (pw : Bool), s.length ≤ len →
      ∃ (segs : List (List Char × Nat)) (closing : List Char),
        s = joinSegments decimal segs closing ∧
        symbolScan ops ns 0 pw s = joinSegments ops.GoString segs closing ∧
        ∀ n ∈ segs.map Prod.snd, n ∈ ns := by
  intro len
  induction len with
  | zero =>
    intro s pw h
    have : s = [] := List.length_eq_zero.1 (Nat.le_zero.1 h)
    subst this
    exact ⟨[], [], rfl, rfl, by simp⟩
  | succ len ih =>
    intro s pw hlen
    cases s with
    | nil => exact ⟨[], [], rfl, rfl, by simp⟩
    | cons c cs =>
      rcases occurs_or_none ns pw (c :: cs) with ⟨n, hn, rest, ho⟩ | hnone
      · have hl := ho.length_lt
        obtain ⟨segs, closing, h1, h2, h3⟩ := ih rest true (by omega)
        refine ⟨([], n) :: segs, closing, ?_, ?_, ?_⟩
        · rw [ho.2.1, h1]
          simp [joinSegments, opPattern]
        · rw [symbolScan_occurs ops ns n pw _ rest hn ho, h2]
          simp [joinSegments, opReplacement]
        · intro m hm
          simp only [List.map_cons, List.mem_cons] at hm
          rcases hm with rfl | hm
          · exact hn
          · exact h3 m hm
      · obtain ⟨segs, closing, h1, h2, h3⟩ := ih cs (isWordChar c) (by simpa using hlen)
        obtain ⟨segs', closing', -, h5, h6⟩ := joinSegments_cons_char decimal c segs closing
        refine ⟨segs', closing', ?_, ?_, ?_⟩
        · rw [h1, h5]
        · rw [symbolScan_copy _ _ _ _ _ hnone, h2, h5]
        · rw [h6]; exact h3

theorem matchLit_false_of_hasBareOrdinal (ns : List Nat) (pw : Bool) (c : Char) (cs : List Char)
    (h : hasBareOrdinal ns pw (c :: cs) = false) :
    (∀ n ∈ ns, matchLit (opPattern n) pw (c :: cs) = false) ∧
      hasBareOrdinal ns (isWordChar c) cs = false := by
  rw [hasBareOrdinal, Bool.or_eq_false_iff, List.any_eq_false] at h
  exact ⟨fun n hn => by simpa using h.1 n hn, h.2⟩

/-- A text without a bare ordinal of `ns` is copied by the scan for ordinals of `ns`. -/
theorem symbolScan_of_no_bare (ops : Operators) (ns ms : List Nat) (hms : ∀ m ∈ ms, m ∈ ns) :
    ∀ (s : List Char) (pw : Bool), hasBareOrdinal ns pw s = false →
      symbolScan ops ms 0 pw s = s := by
  intro s
  induction s with
  | nil => intro pw _; rfl
  | cons c cs ih =>
    intro pw h
    obtain ⟨h1, h2⟩ := matchLit_false_of_hasBareOrdinal ns pw c cs h
    rw [symbolScan_copy _ _ _ _ _ (fun m hm => h1 m (hms m hm)), ih _ h2]

/-- A text without a bare ordinal of `ns` goes unchanged through the passes for ordinals
of `ns`, whatever the operator names are. -/
theorem foldl_symbolizeStep_of_no_bare (ops : Operators) (ns : List Nat) (s : List Char)
    (h : hasBareOrdinal ns false s = false) :
    ∀ ms : List Nat, (∀ m ∈ ms, m ∈ ns) → ms.foldl (symbolizeStep ops) s = s := by
  intro ms
  induction ms with
  | nil => intro _; rfl
  | cons m ms ih =>
    intro hms
    rw [List.foldl_cons, symbolizeStep_eq_symbolScan,
      symbolScan_of_no_bare ops ns [m] (fun x hx => hms x (by simp_all)) s false h]
    exact ih (fun x hx => hms x (List.mem_cons_of_mem _ hx))

/-! ### The text `Op: m` alone -/

/-- The scan copies `Op: ` followed by digits that spell no ordinal of `ns`. -/
theorem symbolScan_opText (ops : Operators) (ns : List Nat) (digits : List Char)
    (hd : ∀ c ∈ digits, c.isDigit = true) (hns : ∀ n ∈ ns, decimal n ≠ digits) :
    symbolScan ops ns 0 false (['O', 'p', ':', ' '] ++ digits) = ['O', 'p', ':', ' '] ++ digits := by
  have h0 : ∀ n ∈ ns, matchLit (opPattern n) false ('O' :: ('p' :: ':' :: ' ' :: digits)) = false := by
    intro n hn
    cases hm : matchLit (opPattern n) false ('O' :: ('p' :: ':' :: ' ' :: digits)) with
    | false => rfl
    | true =>
      obtain ⟨r, -, hs, hr⟩ := (matchLit_opPattern n false _).1 hm
      simp only [opPattern, List.cons_append, List.nil_append, List.cons.injEq, true_and] at hs
      cases r with
      | nil => exact absurd (by rw [hs, List.append_nil]) (hns n hn)
      | cons c r =>
        have hc : c ∈ digits := by rw [hs]; simp
        rw [headIsWord, isWordChar_of_isDigit (hd c hc)] at hr
        exact absurd hr (by decide)
  have hO : 'O' ∉ ('p' :: ':' :: ' ' :: digits) := by
    intro h
    simp only [List.mem_cons] at h
    rcases h with h | h | h | h
    · exact absurd h (by decide)
    · exact absurd h (by decide)
    · exact absurd h (by decide)
    · exact ne_O_of_isDigit (hd _ h) rfl
  have h1 := symbolScan_no_O ops ns _ [] (isWordChar 'O') hO
  rw [List.append_nil, symbolScan_nil, List.append_nil] at h1
  show symbolScan ops ns 0 false ('O' :: ('p' :: ':' :: ' ' :: digits)) = _
  rw [symbolScan_copy _ _ _ _ _ h0, h1]
  rfl

theorem symbolizeStep_opPattern_ne (ops : Operators) (k m : Nat) (h : k ≠ m) :
    symbolizeStep ops (opPattern m) k = opPattern m := by
  rw [symbolizeStep_eq_symbolScan]
  exact symbolScan_opText ops [k] (decimal m) (decimal_digits m)
    (fun n hn => by
      obtain rfl : n = k := by simpa using hn
      exact fun hd => h (decimal_injective hd))

theorem symbolizeStep_opPattern_self (ops : Operators) (m : Nat) :
    symbolizeStep ops (opPattern m) m = opReplacement ops m := by
  rw [symbolizeStep_eq_symbolScan]
  have h := symbolScan_occurs ops [m] m false (opPattern m) [] (by simp)
    ⟨rfl, (List.append_nil _).symm, rfl⟩
  rw [h, symbolScan_nil, List.append_nil]

theorem symbolizeStep_opReplacement (ops : Operators) (k m : Nat)
    (hsym : isSymbolicName (ops.GoString m) = true) :
    symbolizeStep ops (opReplacement ops m) k = opReplacement ops m := by
  rw [symbolizeStep_eq_symbolScan]
  have h := symbolScan_replacement ops [k] m false [] hsym rfl
  rw [List.append_nil, symbolScan_nil, List.append_nil] at h
  exact h

theorem foldl_symbolizeStep_opReplacement (ops : Operators) (m : Nat)
    (hsym : isSymbolicName (ops.GoString m) = true) :
    ∀ ns : List Nat, ns.foldl (symbolizeStep ops) (opReplacement ops m) = opReplacement ops m := by
  intro ns
  induction ns with
  | nil => rfl
  | cons k ns ih => rw [List.foldl_cons, symbolizeStep_opReplacement ops k m hsym, ih]

theorem foldl_symbolizeStep_opPattern_not_mem (ops : Operators) (m : Nat) :
    ∀ ns : List Nat, m ∉ ns → ns.foldl (symbolizeStep ops) (opPattern m) = opPattern m := by
  intro ns
  induction ns with
  | nil => intro _; rfl
  | cons k ns ih =>
    intro h
    simp only [List.mem_cons, not_or] at h
    rw [List.foldl_cons, symbolizeStep_opPattern_ne ops k m (Ne.symm h.1), ih h.2]

theorem foldl_symbolizeStep_opPattern_mem (ops : Operators) (m : Nat)
    (hsym : isSymbolicName (ops.GoString m) = true) :
    ∀ ns : List Nat, m ∈ ns → ns.foldl (symbolizeStep ops) (opPattern m) = opReplacement ops m := by
  intro ns
  induction ns with
  | nil => intro h; exact absurd h (List.not_mem_nil m)
  | cons k ns ih =>
    intro h
    by_cases hk : k = m
    · subst hk
      rw [List.foldl_cons, symbolizeStep_opPattern_self,
        foldl_symbolizeStep_opReplacement ops k hsym]
    · have hm : m ∈ ns := by
        rcases List.mem_cons.1 h with h | h
        · exact absurd h.symm hk
        · exact h
      rw [List.foldl_cons, symbolizeStep_opPattern_ne ops k m hk, ih hm]

/-- The scan for ordinals other than `m` copies a word-bounded `Op: m`. -/
theorem symbolScan_other (ops : Operators) (ns : List Nat) (m : Nat) (pw : Bool)
    (s rest : List Char) (hm : ∀ n ∈ ns, n ≠ m) (ho : OccursAt m pw s rest) :
    symbolScan ops ns 0 pw s = opPattern m ++ symbolScan ops ns 0 true rest := by
  have hs : s = 'O' :: (('p' :: ':' :: ' ' :: decimal m) ++ rest) := ho.2.1
  have hnone : ∀ n ∈ ns, matchLit (opPattern n) pw s = false := by
    intro n hn
    cases h : matchLit (opPattern n) pw s with
    | false => rfl
    | true =>
      obtain ⟨r, hr⟩ := (matchLit_opPattern n pw s).1 h
      exact absurd (hr.unique ho).1 (hm n hn)
  rw [hs] at hnone ⊢
  rw [symbolScan_copy _ _ _ _ _ hnone, symbolScan_no_O ops ns _ _ _ (O_not_mem_tail m)]
  have hl := lastIsWord_opPattern false m
  rw [opPattern_cons, lastIsWord] at hl
  rw [hl]
  rfl

/-- C7 (word boundary, no collision with a longer numeral): the pass for `n` leaves a
word-bounded occurrence of `Op: m` unchanged when the spelling of `n` is a proper part at
the start of the spelling of `m` (`n = 1`, `m = 12`), the texts before and after being
handled on their own; the loop turns the text `Op: m` into `Op: ` and the symbolic form of
`m` for `m` in the range from `OpAdd` to `OpAlt`, the form being a symbolic name, and
leaves `Op: m` unchanged for `m` outside the range. -/
theorem symbolize_word_boundary (ops : Operators) (n m : Nat) (d : Char) (ds : List Char)
    (pre post : List Char) :
    (decimal m = decimal n ++ d :: ds → lastIsWord false pre = false →
      headIsWord post = false →
      symbolizeStep ops (pre ++ opPattern m ++ post) n =
        symbolizeStep ops pre n ++ opPattern m ++ symbolizeStep ops post n) ∧
    (ops.OpAdd ≤ m → m ≤ ops.OpAlt → isSymbolicName (ops.GoString m) = true →
      symbolize ops (opPattern m) = opReplacement ops m) ∧
    (¬ (ops.OpAdd ≤ m ∧ m ≤ ops.OpAlt) → symbolize ops (opPattern m) = opPattern m) := by
  refine ⟨fun h hpre hpost => ?_, fun h1 h2 hsym => ?_, fun h => ?_⟩
  · have hne : ∀ k ∈ [n], k ≠ m := by
      intro k hk
      obtain rfl : k = n := by simpa using hk
      rintro rfl
      have := congrArg List.length h
      simp at this
    rw [symbolizeStep_eq_symbolScan, symbolizeStep_eq_symbolScan, symbolizeStep_eq_symbolScan,
      List.append_assoc, symbolScan_append_occurrence ops [n] m post _ pre false
        (Nat.le_refl _) hpre,
      symbolScan_other ops [n] m false _ post hne ⟨rfl, rfl, hpost⟩,
      symbolScan_prev_irrelevant ops [n] true false post hpost, List.append_assoc]
  · exact foldl_symbolizeStep_opPattern_mem ops m hsym _ ((mem_opRange ops m).2 ⟨h1, h2⟩)
  · exact foldl_symbolizeStep_opPattern_not_mem ops m _ (fun hm => h ((mem_opRange ops m).1 hm))

/-- C7 witness: with the sample operators, the pass for 1 leaves `Op: 12` as it is and
replaces `Op: 1`; the loop turns `Op: 12` into `Op: OpAnd` and leaves `Op: 15`. -/
theorem symbolize_word_boundary_witness :
    symbolizeStep demoOperators "X: 1, Op: 12, Op: 1".toList 1
      = "X: 1, Op: 12, Op: OpAdd".toList ∧
    symbolize demoOperators "Op: 12".toList = "Op: OpAnd".toList ∧
    symbolize demoOperators "Op: 15".toList = "Op: 15".toList :=
  ⟨((symbolize_word_boundary demoOperators 1 12 '2' [] "X: 1, ".toList ", Op: 1".toList).1
      rfl rfl rfl).trans rfl,
   (symbolize_word_boundary demoOperators 1 12 '2' [] [] []).2.1 (by decide) (by decide) rfl,
   (symbolize_word_boundary demoOperators 1 15 '5' [] [] []).2.2 (by decide)⟩

/-! ### `printCompositeLit` -/

theorem printElts_cons (pr : Printer) (ops : Operators) (kv : Expr) (kvs : List Expr)
    (out : List Char) (hkv : (pr (.expr kv)).2 = none) :
    printElts pr ops (kv :: kvs) out =
      printElts pr ops kvs
        (out ++ ['\n', '\t', '\t'] ++ symbolize ops (pr (.expr kv)).1 ++ [',']) := by
  rw [printElts]
  simp only [hkv]

theorem printElts_ok (pr : Printer) (ops : Operators) :
    ∀ (kvs : List Expr) (out : List Char), (∀ kv ∈ kvs, (pr (.expr kv)).2 = none) →
      printElts pr ops kvs out =
        (out ++ (kvs.map (fun kv =>
          ['\n', '\t', '\t'] ++ symbolize ops (pr (.expr kv)).1 ++ [','])).flatten, none) := by
  intro kvs
  induction kvs with
  | nil => intro out _; simp [printElts]
  | cons kv kvs ih =>
    intro out h
    rw [printElts_cons pr ops kv kvs out (h kv (by simp)),
      ih _ (fun x hx => h x (List.mem_cons_of_mem _ hx))]
    simp [List.append_assoc]

/-- C8 (Literal Printer layout): when the printer succeeds on the type and on every entry,
`printCompositeLit` appends to `out` exactly the rendering of the type, an opening brace,
for each entry in the order of the literal a newline, two tabs, the symbolized rendering
of the entry and a comma, then newline, tab, closing brace, newline; as many entry lines
as entries; for no entry the output is the type followed by brace, newline, tab, brace,
newline. -/
theorem printCompositeLit_layout (pr : Printer) (ops : Operators) (out : List Char)
    (t : CompositeLit) (htype : (pr (exprNode t.type)).2 = none)
    (helts : ∀ kv ∈ t.Elts, (pr (.expr kv)).2 = none) :
    printCompositeLit pr ops out t =
      (out ++ (pr (exprNode t.type)).1 ++ ['\x7b'] ++
        (t.Elts.map (fun kv =>
          ['\n', '\t', '\t'] ++ symbolize ops (pr (.expr kv)).1 ++ [','])).flatten ++
        ['\n', '\t', '\x7d', '\n'], none) ∧
    (t.Elts.map (fun kv =>
      ['\n', '\t', '\t'] ++ symbolize ops (pr (.expr kv)).1 ++ [','])).length = t.Elts.length ∧
    (t.Elts = [] →
      printCompositeLit pr ops out t =
        (out ++ (pr (exprNode t.type)).1 ++ ['\x7b', '\n', '\t', '\x7d', '\n'], none)) := by
  have h : printCompositeLit pr ops out t =
      (out ++ (pr (exprNode t.type)).1 ++ ['\x7b'] ++
        (t.Elts.map (fun kv =>
          ['\n', '\t', '\t'] ++ symbolize ops (pr (.expr kv)).1 ++ [','])).flatten ++
        ['\n', '\t', '\x7d', '\n'], none) := by
    rw [printCompositeLit]
    simp only [htype, printElts_ok pr ops t.Elts _ helts]
  refine ⟨h, by simp, fun he => ?_⟩
  rw [h, he]
  simp

/-- C8 witness: the literal `T` with the entries `a: 1` and `Op: 3`. -/
theorem printCompositeLit_layout_witness :
    printCompositeLit demoPrinter demoOperators []
        ⟨some (.ident "T"),
          [.keyValueExpr (.ident "a") (.basicLit 5 "1"),
           .keyValueExpr (.ident "Op") (.basicLit 5 "3")]⟩
      = ("T\x7b\n\t\ta: 1,\n\t\tOp: OpMul,\n\t\x7d\n".toList, none) := by
  have h := (printCompositeLit_layout demoPrinter demoOperators []
    ⟨some (.ident "T"),
      [.keyValueExpr (.ident "a") (.basicLit 5 "1"),
       .keyValueExpr (.ident "Op") (.basicLit 5 "3")]⟩ rfl
    (by intro kv hkv; simp only [List.mem_cons, List.mem_singleton, List.not_mem_nil,
          or_false] at hkv; rcases hkv with rfl | rfl <;> rfl)).1
  rw [h]
  rfl

/-! ### Symbolization of an entry -/

theorem printElts_append (pr : Printer) (ops : Operators) :
    ∀ (before rest : List Expr) (out : List Char),
      (∀ x ∈ before, (pr (.expr x)).2 = none) →
      printElts pr ops (before ++ rest) out =
        printElts pr ops rest (out ++ (before.map (fun x =>
          ['\n', '\t', '\t'] ++ symbolize ops (pr (.expr x)).1 ++ [','])).flatten) := by
  intro before
  induction before with
  | nil => intro rest out _; simp
  | cons x before ih =>
    intro rest out h
    rw [List.cons_append, printElts_cons pr ops x _ out (h x (by simp)),
      ih rest _ (fun y hy => h y (List.mem_cons_of_mem _ hy))]
    simp [List.append_assoc]

/-- C5 (symbolization completeness): the text that the loop of `printCompositeLit` emits
for an entry `kv` of the literal, wherever it stands among the entries, is the symbolized
rendering of the entry; when the operator names of the range are symbolic names, that text
holds no word-bounded `Op: n` with a bare ordinal `n` of the range from `OpAdd` to
`OpAlt`, and every such field of the rendering stands in it as `Op: ` followed by the
symbolic form of `n`, between the symbolized texts before and after it. -/
theorem symbolize_complete (pr : Printer) (ops : Operators) (before : List Expr) (kv : Expr)
    (after : List Expr) (out : List Char) (n : Nat) (pre post : List Char)
    (hsym : ∀ k, ops.OpAdd ≤ k → k ≤ ops.OpAlt → isSymbolicName (ops.GoString k) = true)
    (hbefore : ∀ x ∈ before, (pr (.expr x)).2 = none)
    (hkv : (pr (.expr kv)).2 = none) (hlo : ops.OpAdd ≤ n) (hhi : n ≤ ops.OpAlt) :
    printElts pr ops (before ++ kv :: after) out =
      printElts pr ops after
        (out ++ (before.map (fun x =>
            ['\n', '\t', '\t'] ++ symbolize ops (pr (.expr x)).1 ++ [','])).flatten ++
          ['\n', '\t', '\t'] ++ symbolize ops (pr (.expr kv)).1 ++ [',']) ∧
    (symbolize ops (pr (.expr kv)).1 = pre ++ opPattern n ++ post →
      ¬ (lastIsWord false pre = false ∧ headIsWord post = false)) ∧
    ((pr (.expr kv)).1 = pre ++ opPattern n ++ post → lastIsWord false pre = false →
      headIsWord post = false →
      symbolize ops (pr (.expr kv)).1 =
        symbolize ops pre ++ opReplacement ops n ++ symbolize ops post) := by
  have hsym' : ∀ k ∈ opRange ops, isSymbolicName (ops.GoString k) = true :=
    fun k hk => hsym k ((mem_opRange ops k).1 hk).1 ((mem_opRange ops k).1 hk).2
  have hn : n ∈ opRange ops := (mem_opRange ops n).2 ⟨hlo, hhi⟩
  refine ⟨?_, ?_, ?_⟩
  · rw [printElts_append pr ops before _ out hbefore, printElts_cons pr ops kv after _ hkv]
  · rintro h ⟨h1, h2⟩
    have hb := hasBareOrdinal_symbolScan ops (opRange ops) hsym' _ (pr (.expr kv)).1 false
      (Nat.le_refl _)
    rw [← symbolize_eq_symbolScan ops hsym', h,
      hasBareOrdinal_of_occurrence (opRange ops) n hn pre post false h1 h2] at hb
    exact absurd hb (by decide)
  · intro h h1 h2
    rw [h, symbolize_eq_symbolScan ops hsym', symbolize_eq_symbolScan ops hsym',
      symbolize_eq_symbolScan ops hsym']
    exact symbolScan_around ops (opRange ops) n hn pre post h1 h2

/-! ### `run` stops at the first failure -/

/-- A table with a rejected source makes the loader return the parser's error for a
rejected source. -/
theorem loadDefinitions_rejected {Query : Type} (Parse : String → Except GoError Query) :
    ∀ (defs : List (String × String)) (qs : String → Option Query),
      (∃ p ∈ defs, ∃ e, Parse p.2 = .error e) →
      ∃ p ∈ defs, ∃ e, Parse p.2 = .error e ∧ loadDefinitions Parse defs qs = .error e := by
  intro defs
  induction defs with
  | nil => rintro qs ⟨p, hp, -⟩; exact absurd hp (List.not_mem_nil p)
  | cons d defs ih =>
    intro qs h
    obtain ⟨n, src⟩ := d
    cases hsrc : Parse src with
    | error e =>
      exact ⟨(n, src), by simp, e, hsrc, by rw [loadDefinitions, hsrc]⟩
    | ok q =>
      have h' : ∃ p ∈ defs, ∃ e, Parse p.2 = .error e := by
        obtain ⟨p, hp, e, he⟩ := h
        rcases List.mem_cons.1 hp with rfl | hp
        · rw [hsrc] at he; exact absurd he (by simp)
        · exact ⟨p, hp, e, he⟩
      obtain ⟨p, hp, e, he, hl⟩ := ih (fun k => if k = n then some q else qs k) h'
      exact ⟨p, List.mem_cons_of_mem _ hp, e, he, by rw [loadDefinitions, hsrc]; exact hl⟩

/-- C9 (fail-fast, no partial output): with the destinations as explicit state, on a table
of definitions with a source the parser rejects `run` returns the parser's error for a
rejected source and leaves the destinations as they were; likewise when the builder fails,
when its result is not a call expression, when `printAssignStmtsFromFuncArgs` returns an
error, when `getReturnStmtCompositeLit` returns an error, and when `printCompositeLit`
returns an error. -/
theorem run_fail_fast {Query : Type} (c : Collaborators Query) (os : OS)
    (defs : List (String × String)) (output : String) (w : World)
    (qs : String → Option Query) (t : Node) (fn : Expr) (args : List Expr)
    (buf buf' : List Char) (m : Option CompositeLit) (lit : CompositeLit) (e : GoError) :
    ((∃ p ∈ defs, ∃ e', c.Parse p.2 = .error e') →
      ∃ p ∈ defs, ∃ e', c.Parse p.2 = .error e' ∧
        run c os defs output w = (.ret (some e'), w)) ∧
    (loadDefinitions c.Parse defs (fun _ => none) = .ok qs → c.Build qs = .error e →
      run c os defs output w = (.ret (some e), w)) ∧
    (loadDefinitions c.Parse defs (fun _ => none) = .ok qs → c.Build qs = .ok t →
      (∀ fn' args', t ≠ .expr (.callExpr fn' args')) →
      run c os defs output w = (.ret (some (.unexpectedAstError t)), w)) ∧
    (loadDefinitions c.Parse defs (fun _ => none) = .ok qs →
      c.Build qs = .ok (.expr (.callExpr fn args)) →
      printAssignStmtsFromFuncArgs c.Fprint [] ⟨fn, args⟩ = .ret (buf, some e) →
      run c os defs output w = (.ret (some e), w)) ∧
    (loadDefinitions c.Parse defs (fun _ => none) = .ok qs →
      c.Build qs = .ok (.expr (.callExpr fn args)) →
      printAssignStmtsFromFuncArgs c.Fprint [] ⟨fn, args⟩ = .ret (buf, none) →
      getReturnStmtCompositeLit ⟨fn, args⟩ = .ret (m, some e) →
      run c os defs output w = (.ret (some e), w)) ∧
    (loadDefinitions c.Parse defs (fun _ => none) = .ok qs →
      c.Build qs = .ok (.expr (.callExpr fn args)) →
      printAssignStmtsFromFuncArgs c.Fprint [] ⟨fn, args⟩ = .ret (buf, none) →
      getReturnStmtCompositeLit ⟨fn, args⟩ = .ret (some lit, none) →
      printCompositeLit c.Fprint c.operators (buf ++ "\n\tbuiltinFuncs = ".toList) lit
        = (buf', some e) →
      run c os defs output w = (.ret (some e), w)) := by
  refine ⟨fun h => ?_, fun h1 h2 => ?_, fun h1 h2 h3 => ?_, fun h1 h2 h3 => ?_,
    fun h1 h2 h3 h4 => ?_, fun h1 h2 h3 h4 h5 => ?_⟩
  · obtain ⟨p, hp, e', he, hl⟩ := loadDefinitions_rejected c.Parse defs (fun _ => none) h
    exact ⟨p, hp, e', he, by rw [run, hl]⟩
  · rw [run, h1]
    simp only [h2]
  · rw [run, h1]
    cases t with
    | expr x =>
      cases x with
      | callExpr fn' args' => exact absurd rfl (h3 fn' args')
      | _ => simp only [h2]
    | _ => simp only [h2]
  · rw [run, h1]
    simp only [h2, h3]
  · rw [run, h1]
    simp only [h2, h3, h4]
  · rw [run, h1]
    simp only [h2, h3, h4, h5]

/-- C9 witness: a table whose second source is rejected; nothing is written. -/
theorem run_fail_fast_witness :
    (∃ p ∈ [("inc", "+1"), ("bad", "")], ∃ e', demoCollaborators.Parse p.2 = .error e') ∧
    ∃ p ∈ [("inc", "+1"), ("bad", "")], ∃ e', demoCollaborators.Parse p.2 = .error e' ∧
      run demoCollaborators demoOS [("inc", "+1"), ("bad", "")] "builtin.go" emptyWorld
        = (.ret (some e'), emptyWorld) :=
  ⟨⟨("bad", ""), by simp, _, rfl⟩,
   (run_fail_fast demoCollaborators demoOS [("inc", "+1"), ("bad", "")] "builtin.go" emptyWorld
      (fun _ => none) .nilNode (.ident "f") [] [] [] none ⟨none, []⟩ (.foreign "")).1
      ⟨("bad", ""), by simp, _, rfl⟩⟩

/-! ### The occurrences that the scan replaces, exactly -/

theorem joinSegments_cons (f : Nat → List Char) (u : List Char) (n : Nat)
    (segs : List (List Char × Nat)) (closing : List Char) :
    joinSegments f ((u, n) :: segs) closing =
      u ++ (['O', 'p', ':', ' '] ++ f n) ++ joinSegments f segs closing := rfl

/-- A text with a bare ordinal of `ns` splits around a word-bounded `Op: m`, `m` of `ns`. -/
theorem occurrence_of_hasBareOrdinal (ns : List Nat) :
    ∀ (s : List Char) (pw : Bool), hasBareOrdinal ns pw s = true →
      ∃ m ∈ ns, ∃ a b, s = a ++ opPattern m ++ b ∧ lastIsWord pw a = false ∧
        headIsWord b = false := by
  intro s
  induction s with
  | nil => intro pw h; exact absurd h (by simp [hasBareOrdinal])
  | cons c cs ih =>
    intro pw h
    rw [hasBareOrdinal, Bool.or_eq_true] at h
    rcases h with h | h
    · rw [List.any_eq_true] at h
      obtain ⟨m, hm, hmatch⟩ := h
      obtain ⟨rest, hpw, hs, hr⟩ := (matchLit_opPattern m pw _).1 hmatch
      exact ⟨m, hm, [], rest, by rw [hs]; rfl, hpw, hr⟩
    · obtain ⟨m, hm, a, b, hs, ha, hb⟩ := ih _ h
      exact ⟨m, hm, c :: a, b, by rw [hs]; rfl, ha, hb⟩

/-- The scanned text is the text with exactly its word-bounded occurrences of `Op: m`, `m`
of `ns`, replaced: the segments are such occurrences, and every such occurrence of the
text is a segment. -/
theorem symbolScan_exact_segments (ops : Operators) (ns : List Nat) :
    ∀ (len : Nat) (s : List Char) (pw : Bool), s.length ≤ len →
      ∃ (segs : List (List Char × Nat)) (closing : List Char),
        s = joinSegments decimal segs closing ∧
        symbolScan ops ns 0 pw s = joinSegments ops.GoString segs closing ∧
        (∀ before u m after, segs = before ++ (u, m) :: after →
          m ∈ ns ∧ lastIsWord pw (joinSegments decimal before u) = false ∧
            headIsWord (joinSegments decimal after closing) = false) ∧
        (∀ m a b, m ∈ ns → s = a ++ opPattern m ++ b → lastIsWord pw a = false →
          headIsWord b = false →
          ∃ before u after, segs = before ++ (u, m) :: after ∧
            a = joinSegments decimal before u ∧
            b = joinSegments decimal after closing) := by
  intro len
  induction len with
  | zero =>
    intro s pw h
    have : s = [] := List.length_eq_zero.1 (Nat.le_zero.1 h)
    subst this
    refine ⟨[], [], rfl, rfl, ?_, ?_⟩
    · intro before u m after h
      exact absurd h.symm (by simp)
    · intro m a b _ hs
      have := congrArg List.length hs
      simp [opPattern] at this
      omega
  | succ len ih =>
    intro s pw hlen
    cases s with
    | nil =>
      refine ⟨[], [], rfl, rfl, ?_, ?_⟩
      · intro before u m after h
        exact absurd h.symm (by simp)
      · intro m a b _ hs
        have := congrArg List.length hs
        simp [opPattern] at this
        omega
    | cons c cs =>
      rcases occurs_or_none ns pw (c :: cs) with ⟨n, hn, rest, ho⟩ | hnone
      · have hl := ho.length_lt
        obtain ⟨segs, closing, h1, h2, hS, hC⟩ := ih rest true (by omega)
        refine ⟨([], n) :: segs, closing, ?_, ?_, ?_, ?_⟩
        · rw [ho.2.1, h1]
          simp [joinSegments, opPattern]
        · rw [symbolScan_occurs ops ns n pw _ rest hn ho, h2]
          simp [joinSegments, opReplacement]
        · intro before u m after hsplit
          cases before with
          | nil =>
            simp only [List.nil_append, List.cons.injEq, Prod.mk.injEq] at hsplit
            obtain ⟨⟨rfl, rfl⟩, rfl⟩ := hsplit
            exact ⟨hn, ho.1, by rw [← h1]; exact ho.2.2⟩
          | cons b0 before =>
            simp only [List.cons_append, List.cons.injEq] at hsplit
            obtain ⟨rfl, hseg⟩ := hsplit
            obtain ⟨hm, hpre, hpost⟩ := hS before u m after hseg
            refine ⟨hm, ?_, hpost⟩
            rw [joinSegments_cons, List.nil_append, lastIsWord_append]
            have := lastIsWord_opPattern pw n
            rw [opPattern] at this
            rw [this]
            exact hpre
        · intro m a b hm hs ha hb
          cases a with
          | nil =>
            have hom : OccursAt m pw (c :: cs) b := ⟨ha, by rw [hs]; rfl, hb⟩
            obtain ⟨rfl, rfl⟩ := hom.unique ho
            exact ⟨[], [], segs, rfl, rfl, h1⟩
          | cons x a =>
            have hsn : c :: cs = 'O' :: (('p' :: ':' :: ' ' :: decimal n) ++ rest) := ho.2.1
            have hsm : c :: cs = x :: (a ++ 'O' :: (('p' :: ':' :: ' ' :: decimal m) ++ b)) := by
              rw [hs]; simp [opPattern]
            rw [hsn] at hsm
            obtain ⟨hx, htail⟩ := List.cons.inj hsm
            obtain ⟨a2, ha2, hrest⟩ := prefix_of_no_O _ _ _ _ (O_not_mem_tail n) htail
            have hrest' : rest = a2 ++ opPattern m ++ b := by
              rw [hrest]; simp [opPattern]
            have ha' : x :: a = opPattern n ++ a2 := by rw [← hx, ha2]; rfl
            have hctx : lastIsWord true a2 = false := by
              rw [ha', lastIsWord_append, lastIsWord_opPattern] at ha
              exact ha
            obtain ⟨before, u, after, hseg, hau, hbu⟩ := hC m a2 b hm hrest' hctx hb
            refine ⟨([], n) :: before, u, after, by rw [hseg]; rfl, ?_, hbu⟩
            rw [ha', hau, joinSegments_cons]
            simp [opPattern]
      · obtain ⟨segs, closing, h1, h2, hS, hC⟩ := ih cs (isWordChar c) (by simpa using hlen)
        have hhead : ∀ m b, m ∈ ns → c :: cs = [] ++ opPattern m ++ b → lastIsWord pw [] = false →
            headIsWord b = false → False := by
          intro m b hm hs ha hb
          have hom : OccursAt m pw (c :: cs) b := ⟨ha, by rw [hs]; rfl, hb⟩
          have := hnone m hm
          rw [(matchLit_opPattern m pw _).2 ⟨b, hom⟩] at this
          exact absurd this (by decide)
        cases segs with
        | nil =>
          refine ⟨[], c :: closing, by rw [h1]; rfl, ?_, ?_, ?_⟩
          · rw [symbolScan_copy _ _ _ _ _ hnone, h2]; rfl
          · intro before u m after h
            exact absurd h.symm (by simp)
          · intro m a b hm hs ha hb
            cases a with
            | nil => exact absurd (hhead m b hm hs ha hb) id
            | cons x a =>
              have hs' : c :: cs = x :: (a ++ opPattern m ++ b) := by rw [hs]; rfl
              obtain ⟨hx, hcs⟩ := List.cons.inj hs'
              rw [← hx] at ha
              obtain ⟨before, u, after, hseg, -, -⟩ := hC m a b hm hcs ha hb
              exact absurd hseg.symm (by simp)
        | cons seg0 rest0 =>
          obtain ⟨u0, n0⟩ := seg0
          refine ⟨(c :: u0, n0) :: rest0, closing, by rw [h1]; rfl, ?_, ?_, ?_⟩
          · rw [symbolScan_copy _ _ _ _ _ hnone, h2]; rfl
          · intro before u m after hsplit
            cases before with
            | nil =>
              simp only [List.nil_append, List.cons.injEq, Prod.mk.injEq] at hsplit
              obtain ⟨⟨rfl, rfl⟩, rfl⟩ := hsplit
              obtain ⟨hm, hpre, hpost⟩ := hS [] u0 n0 rest0 rfl
              exact ⟨hm, hpre, hpost⟩
            | cons b0 before =>
              simp only [List.cons_append, List.cons.injEq] at hsplit
              obtain ⟨rfl, hseg⟩ := hsplit
              obtain ⟨hm, hpre, hpost⟩ := hS ((u0, n0) :: before) u m after (by rw [hseg]; rfl)
              exact ⟨hm, hpre, hpost⟩
          · intro m a b hm hs ha hb
            cases a with
            | nil => exact absurd (hhead m b hm hs ha hb) id
            | cons x a =>
              have hs' : c :: cs = x :: (a ++ opPattern m ++ b) := by rw [hs]; rfl
              obtain ⟨hx, hcs⟩ := List.cons.inj hs'
              rw [← hx] at ha
              obtain ⟨before, u, after, hseg, hau, hbu⟩ := hC m a b hm hcs ha hb
              cases before with
              | nil =>
                simp only [List.nil_append, List.cons.injEq, Prod.mk.injEq] at hseg
                obtain ⟨⟨rfl, rfl⟩, rfl⟩ := hseg
                exact ⟨[], c :: u0, rest0, rfl, by rw [← hx, hau]; rfl, hbu⟩
              | cons b0 before =>
                simp only [List.cons_append, List.cons.injEq] at hseg
                obtain ⟨rfl, hrest0⟩ := hseg
                exact ⟨(c :: u0, n0) :: before, u, after, by rw [hrest0]; rfl,
                  by rw [← hx, hau]; rfl, hbu⟩

/-! ### The sample operators -/

theorem demoOperators_symbolic (k : Nat) (h1 : demoOperators.OpAdd ≤ k)
    (h2 : k ≤ demoOperators.OpAlt) : isSymbolicName (demoOperators.GoString k) = true := by
  have h3 : 1 ≤ k := h1
  have h4 : k ≤ 14 := h2
  interval_cases k <;> rfl

/-- C5 witness: the entry rendered `X: &T{Op: 3, N: 3}` is emitted with `Op: OpMul`. -/
theorem symbolize_complete_witness :
    (demoPrinter (.expr (.keyValueExpr (.ident "X") (.basicLit 9 "&T\x7bOp: 3, N: 3\x7d")))).2
      = none ∧
    (demoPrinter (.expr (.keyValueExpr (.ident "X") (.basicLit 9 "&T\x7bOp: 3, N: 3\x7d")))).1
      = "X: &T\x7b".toList ++ opPattern 3 ++ ", N: 3\x7d".toList ∧
    symbolize demoOperators
        (demoPrinter
          (.expr (.keyValueExpr (.ident "X") (.basicLit 9 "&T\x7bOp: 3, N: 3\x7d")))).1
      = "X: &T\x7bOp: OpMul, N: 3\x7d".toList :=
  ⟨rfl, rfl,
   ((symbolize_complete demoPrinter demoOperators []
      (.keyValueExpr (.ident "X") (.basicLit 9 "&T\x7bOp: 3, N: 3\x7d")) [] [] 3
      "X: &T\x7b".toList ", N: 3\x7d".toList demoOperators_symbolic
      (fun x hx => absurd hx (List.not_mem_nil x)) rfl
      (by decide) (by decide)).2.2 rfl rfl rfl).trans rfl⟩

/-- C6 (non-collision) fails on the contents of a string literal: the entry rendered
`Str: "Op: 3"` is emitted as `Str: "Op: OpMul"`. -/
theorem symbolize_string_counterexample :
    (demoPrinter (.expr (.keyValueExpr (.ident "Str") (.basicLit 9 "\"Op: 3\"")))).1
      = "Str: \"Op: 3\"".toList ∧
    printCompositeLit demoPrinter demoOperators []
        ⟨some (.ident "T"), [.keyValueExpr (.ident "Str") (.basicLit 9 "\"Op: 3\"")]⟩
      = ("T\x7b\n\t\tStr: \"Op: OpMul\",\n\t\x7d\n".toList, none) ∧
    symbolize demoOperators "Str: \"Op: 3\"".toList ≠ "Str: \"Op: 3\"".toList :=
  ⟨rfl, rfl, by decide⟩

/-- C6 as amended: the loop alters only word-bounded occurrences of the text `Op: n` with
`n` in the range from `OpAdd` to `OpAlt`, in whatever place of the rendering they stand.
The emitted text is the rendering with occurrences of `Op: n` replaced by `Op: ` and the
symbolic form of `n`, every other character unchanged in its place; each replaced
occurrence has `n` in the range, starts at a word boundary and ends at one, and every
such occurrence of the rendering is replaced.  A rendering without such an occurrence is
emitted unchanged, and around such an occurrence the rendering is handled piece by
piece. -/
theorem symbolize_alters_only_occurrences (ops : Operators) (s : List Char) (n : Nat)
    (pre post : List Char)
    (hsym : ∀ k, ops.OpAdd ≤ k → k ≤ ops.OpAlt → isSymbolicName (ops.GoString k) = true) :
    (∃ (segs : List (List Char × Nat)) (closing : List Char),
      s = joinSegments decimal segs closing ∧
      symbolize ops s = joinSegments ops.GoString segs closing ∧
      (∀ before u m after, segs = before ++ (u, m) :: after →
        ops.OpAdd ≤ m ∧ m ≤ ops.OpAlt ∧
        lastIsWord false (joinSegments decimal before u) = false ∧
        headIsWord (joinSegments decimal after closing) = false) ∧
      (∀ m a b, ops.OpAdd ≤ m → m ≤ ops.OpAlt → s = a ++ opPattern m ++ b →
        lastIsWord false a = false → headIsWord b = false →
        ∃ before u after, segs = before ++ (u, m) :: after ∧
          a = joinSegments decimal before u ∧ b = joinSegments decimal after closing)) ∧
    ((∀ m a b, ops.OpAdd ≤ m → m ≤ ops.OpAlt → s = a ++ opPattern m ++ b →
        ¬ (lastIsWord false a = false ∧ headIsWord b = false)) →
      symbolize ops s = s) ∧
    (ops.OpAdd ≤ n → n ≤ ops.OpAlt → s = pre ++ opPattern n ++ post →
      lastIsWord false pre = false → headIsWord post = false →
      symbolize ops s = symbolize ops pre ++ opReplacement ops n ++ symbolize ops post) := by
  have hsym' : ∀ k ∈ opRange ops, isSymbolicName (ops.GoString k) = true :=
    fun k hk => hsym k ((mem_opRange ops k).1 hk).1 ((mem_opRange ops k).1 hk).2
  refine ⟨?_, fun hnone => ?_, fun hlo hhi hs hpre hpost => ?_⟩
  · obtain ⟨segs, closing, h1, h2, hS, hC⟩ :=
      symbolScan_exact_segments ops (opRange ops) _ s false (Nat.le_refl _)
    refine ⟨segs, closing, h1, by rw [symbolize_eq_symbolScan ops hsym', h2], ?_, ?_⟩
    · intro before u m after hsplit
      obtain ⟨hm, hb, ha⟩ := hS before u m after hsplit
      exact ⟨((mem_opRange ops m).1 hm).1, ((mem_opRange ops m).1 hm).2, hb, ha⟩
    · intro m a b hlo hhi hs ha hb
      exact hC m a b ((mem_opRange ops m).2 ⟨hlo, hhi⟩) hs ha hb
  · cases hb : hasBareOrdinal (opRange ops) false s with
    | false => exact foldl_symbolizeStep_of_no_bare ops (opRange ops) s hb _ (fun _ hm => hm)
    | true =>
      obtain ⟨m, hm, a, b, hs, ha, hb'⟩ := occurrence_of_hasBareOrdinal (opRange ops) s false hb
      exact absurd ⟨ha, hb'⟩
        (hnone m a b ((mem_opRange ops m).1 hm).1 ((mem_opRange ops m).1 hm).2 hs)
  · rw [hs, symbolize_eq_symbolScan ops hsym', symbolize_eq_symbolScan ops hsym',
      symbolize_eq_symbolScan ops hsym']
    exact symbolScan_around ops (opRange ops) n ((mem_opRange ops n).2 ⟨hlo, hhi⟩) pre post
      hpre hpost

/-- C6 witness: a numeral elsewhere, a field named `BinOp`, an `Op` outside the range and
`Op: 31` are left as they are; `Op: 3` inside a string literal is rewritten. -/
theorem symbolize_alters_only_occurrences_witness :
    hasBareOrdinal (opRange demoOperators) false "N: 3, BinOp: 3, Op: 15, Op: 31, 3".toList
      = false ∧
    symbolize demoOperators "N: 3, BinOp: 3, Op: 15, Op: 31, 3".toList
      = "N: 3, BinOp: 3, Op: 15, Op: 31, 3".toList ∧
    symbolize demoOperators "BinOp: 3, Str: \"Op: 3\"".toList
      = "BinOp: 3, Str: \"Op: OpMul\"".toList :=
  ⟨by decide,
   (symbolize_alters_only_occurrences demoOperators "N: 3, BinOp: 3, Op: 15, Op: 31, 3".toList
      0 [] [] demoOperators_symbolic).2.1
      (fun m a b hlo hhi hs hb => by
        have h := hasBareOrdinal_of_occurrence (opRange demoOperators) m
          ((mem_opRange demoOperators m).2 ⟨hlo, hhi⟩) a b false hb.1 hb.2
        rw [← hs] at h
        exact absurd h (by decide)),
   ((symbolize_alters_only_occurrences demoOperators "BinOp: 3, Str: \"Op: 3\"".toList
      3 "BinOp: 3, Str: \"".toList "\"".toList demoOperators_symbolic).2.2
      (by decide) (by decide) rfl rfl rfl).trans rfl⟩

/-! ### The binding loops, whenever they return -/

/-- The inner loop, when it returns, has appended the names and the next arguments; it
returns only if enough arguments remain. -/
theorem bindNames_ret (args : List Expr) :
    ∀ (names : List String) (st st' : BindState), bindNames args names st = .ret st' →
      st' = ⟨st.lhs ++ names.map Expr.ident, st.rhs ++ (args.drop st.i).take names.length,
              st.i + names.length⟩ ∧
      (names.length = 0 ∨ st.i + names.length ≤ args.length) := by
  intro names
  induction names with
  | nil =>
    intro st st' h
    simp only [bindNames, Exec.ret.injEq] at h
    subst h
    simp
  | cons name names ih =>
    intro st st' h
    by_cases hi : st.i < args.length
    · have hle : st.i + (name :: names).length ≤ args.length := by
        rw [bindNames, List.getElem?_eq_getElem hi] at h
        obtain ⟨-, h2⟩ := ih _ _ h
        simp only [List.length_cons] at h2 ⊢
        rcases h2 with h2 | h2 <;> omega
      rw [bindNames_of_le args _ st hle] at h
      simp only [Exec.ret.injEq] at h
      exact ⟨h.symm, .inr hle⟩
    · rw [bindNames, List.getElem?_eq_none (by omega)] at h
      exact absurd h (by simp)

/-- The outer loop, when it returns, has appended all the names and as many arguments; it
returns only if the call has that many arguments left, or no name is declared. -/
theorem bindParams_ret (args : List Expr) :
    ∀ (params : List Field) (st st' : BindState), bindParams args params st = .ret st' →
      st' = ⟨st.lhs ++ (paramNames params).map Expr.ident,
              st.rhs ++ (args.drop st.i).take (paramNames params).length,
              st.i + (paramNames params).length⟩ ∧
      ((paramNames params).length = 0 ∨ st.i + (paramNames params).length ≤ args.length) := by
  intro params
  induction params with
  | nil =>
    intro st st' h
    simp only [bindParams, Exec.ret.injEq] at h
    subst h
    simp [paramNames]
  | cons param params ih =>
    intro st st' h
    have hsplit : paramNames (param :: params) = param.Names ++ paramNames params := by
      simp [paramNames]
    have hfull := h
    rw [bindParams] at h
    cases h1 : bindNames args param.Names st with
    | panic p => rw [h1] at h; exact absurd h (by simp)
    | ret st1 =>
      rw [h1] at h
      obtain ⟨e1, b1⟩ := bindNames_ret args _ _ _ h1
      obtain ⟨e2, b2⟩ := ih _ _ h
      have hle : (paramNames (param :: params)).length = 0 ∨
          st.i + (paramNames (param :: params)).length ≤ args.length := by
        rw [hsplit, List.length_append]
        rw [e1] at b2
        simp only at b2
        rcases b1 with b1 | b1 <;> rcases b2 with b2 | b2 <;> omega
      refine ⟨?_, hle⟩
      rcases hle with h0 | hle
      · rw [e2, e1]
        rw [hsplit, List.length_append] at h0
        have hn : param.Names = [] := List.length_eq_zero.1 (by omega)
        have hp : paramNames params = [] := List.length_eq_zero.1 (by omega)
        simp [hsplit, hn, hp]
      · rw [bindParams_of_le args _ st hle] at hfull
        exact (Exec.ret.inj hfull).symm

theorem paramNames_length (params : List Field) :
    (paramNames params).length = (params.map (fun p => p.Names.length)).sum := by
  induction params with
  | nil => rfl
  | cons p ps ih =>
    have hsplit : paramNames (p :: ps) = p.Names ++ paramNames ps := by simp [paramNames]
    rw [hsplit, List.length_append, ih]
    simp

/-- C16 (balanced binding statement): when `printAssignStmtsFromFuncArgs` returns on a call
whose callee is a parenthesized function literal, the loops have built a statement whose
left and right sides have the same length, the total number of names over the parameter
fields (one binding for each name of a field, none for a field without names); the left
side is the names in order and the right side is the first that many arguments of the
call; a field without names changes neither the statement nor the argument index. -/
theorem printAssignStmtsFromFuncArgs_balanced (pr : Printer) (out : List Char) (f : CallExpr)
    (type : FuncType) (body : BlockStmt) (r : List Char × Option GoError)
    (hfun : f.Fun = .parenExpr (.funcLit type body))
    (hret : printAssignStmtsFromFuncArgs pr out f = .ret r) :
    (∃ st : BindState,
      bindParams f.Args type.Params ⟨[], [], 0⟩ = .ret st ∧
      r = (out ++ ['\n', '\t'] ++ (pr (.stmt (.assignStmt st.lhs .DEFINE st.rhs))).1,
            (pr (.stmt (.assignStmt st.lhs .DEFINE st.rhs))).2) ∧
      st.lhs.length = st.rhs.length ∧
      st.lhs.length = (type.Params.map (fun p => p.Names.length)).sum ∧
      st.lhs = (paramNames type.Params).map Expr.ident ∧
      st.rhs = f.Args.take (type.Params.map (fun p => p.Names.length)).sum) ∧
    (∀ (t : Expr) (params : List Field) (st0 : BindState),
      bindParams f.Args (Field.mk [] t :: params) st0 = bindParams f.Args params st0) := by
  constructor
  · unfold printAssignStmtsFromFuncArgs at hret
    rw [hfun] at hret
    simp only at hret
    cases hb : bindParams f.Args type.Params ⟨[], [], 0⟩ with
    | panic p => rw [hb] at hret; exact absurd hret (by simp)
    | ret st =>
      rw [hb] at hret
      simp only at hret
      have hne : st.lhs ≠ [] := by
        intro h0
        rw [h0] at hret
        exact absurd hret (by simp [fprintAssignStmt])
      rw [fprintAssignStmt_of_ne_nil pr _ _ _ hne] at hret
      simp only [Exec.ret.injEq] at hret
      obtain ⟨hst, hle⟩ := bindParams_ret f.Args type.Params _ _ hb
      simp only [List.nil_append, List.drop_zero, Nat.zero_add] at hst hle
      have hl : st.lhs = (paramNames type.Params).map Expr.ident := by rw [hst]
      have hr : st.rhs = f.Args.take (paramNames type.Params).length := by rw [hst]
      refine ⟨st, rfl, hret.symm, ?_, ?_, hl, ?_⟩
      · rw [hl, hr, List.length_map, List.length_take]
        rcases hle with h0 | hle <;> omega
      · rw [hl, List.length_map, paramNames_length]
      · rw [hr, paramNames_length]
  · intro t params st0
    rfl

/-- C16 witness: `(func(a, b T, U, c V) {})(x, y, z, w)` has the fields `a, b`, an unnamed
one and `c`; the statement is `a, b, c := x, y, z`. -/
theorem printAssignStmtsFromFuncArgs_balanced_witness :
    printAssignStmtsFromFuncArgs demoPrinter []
        ⟨.parenExpr (.funcLit
          (.mk [.mk ["a", "b"] (.ident "T"), .mk [] (.ident "U"), .mk ["c"] (.ident "V")] [])
          (.mk [])),
          [.ident "x", .ident "y", .ident "z", .ident "w"]⟩
      = .ret ("\n\ta, b, c := x, y, z".toList, none) ∧
    ∃ st : BindState,
      bindParams [.ident "x", .ident "y", .ident "z", .ident "w"]
        [.mk ["a", "b"] (.ident "T"), .mk [] (.ident "U"), .mk ["c"] (.ident "V")]
        ⟨[], [], 0⟩ = .ret st ∧
      st.lhs.length = 3 ∧ st.rhs.length = 3 ∧
      st.rhs = [.ident "x", .ident "y", .ident "z"] := by
  refine ⟨rfl, ?_⟩
  obtain ⟨⟨st, h1, -, h3, h4, -, h6⟩, -⟩ :=
    printAssignStmtsFromFuncArgs_balanced demoPrinter []
      ⟨.parenExpr (.funcLit
        (.mk [.mk ["a", "b"] (.ident "T"), .mk [] (.ident "U"), .mk ["c"] (.ident "V")] [])
        (.mk [])),
        [.ident "x", .ident "y", .ident "z", .ident "w"]⟩ _ _ _ rfl rfl
  exact ⟨st, h1, h4, h3 ▸ h4, h6⟩

/-! ### The output of a successful run -/

theorem printElts_out (pr : Printer) (ops : Operators) :
    ∀ (kvs : List Expr) (out : List Char),
      printElts pr ops kvs out =
        (out ++ (printElts pr ops kvs []).1, (printElts pr ops kvs []).2) := by
  intro kvs
  induction kvs with
  | nil => intro out; simp [printElts]
  | cons kv kvs ih =>
    intro out
    rw [printElts, printElts]
    cases hkv : (pr (.expr kv)).2 with
    | some err => simp
    | none =>
      simp only
      rw [ih (out ++ ['\n', '\t', '\t'] ++ symbolize ops (pr (.expr kv)).1 ++ [',']),
        ih ([] ++ ['\n', '\t', '\t'] ++ symbolize ops (pr (.expr kv)).1 ++ [','])]
      simp [List.append_assoc]

/-- What `printCompositeLit` writes does not depend on what the buffer holds already. -/
theorem printCompositeLit_out (pr : Printer) (ops : Operators) (out : List Char)
    (t : CompositeLit) :
    printCompositeLit pr ops out t =
      (out ++ (printCompositeLit pr ops [] t).1, (printCompositeLit pr ops [] t).2) := by
  rw [printCompositeLit, printCompositeLit]
  cases ht : (pr (exprNode t.type)).2 with
  | some err => simp
  | none =>
    simp only
    rw [printElts_out pr ops t.Elts (out ++ (pr (exprNode t.type)).1 ++ ['\x7b']),
      printElts_out pr ops t.Elts ([] ++ (pr (exprNode t.type)).1 ++ ['\x7b'])]
    cases he : (printElts pr ops t.Elts []).2 with
    | some err => simp [List.append_assoc]
    | none => simp [List.append_assoc]

/-- A write that returns no error has accepted the whole text. -/
theorem writeBytes_ok (os : OS) (text : List Char) (h : (writeBytes os text).2 = none) :
    (writeBytes os text).1 = text := by
  unfold writeBytes at h ⊢
  cases hw : os.writeErr with
  | none => rfl
  | some p => rw [hw] at h; simp at h

/-- The end of `run`, when it returns no error: the formatted buffer is appended to standard
output, or is the contents of the file `output`; nothing else changes. -/
theorem emit_ok (os : OS) (output : String) (buf : List Char) (w w' : World)
    (h : emit os output buf w = (none, w')) :
    (output = "" → w'.stdout = w.stdout ++ fileFormat buf ∧ w'.files = w.files) ∧
    (output ≠ "" → w'.stdout = w.stdout ∧ w'.files output = some (fileFormat buf) ∧
      ∀ path, path ≠ output → w'.files path = w.files path) := by
  unfold emit at h
  by_cases ho : output = ""
  · rw [if_pos ho] at h
    simp only [Prod.mk.injEq] at h
    obtain ⟨h1, h2⟩ := h
    rw [writeBytes_ok os _ h1] at h2
    subst h2
    exact ⟨fun _ => ⟨rfl, rfl⟩, fun hne => absurd ho hne⟩
  · rw [if_neg ho] at h
    cases hc : os.createErr output with
    | some err => rw [hc] at h; simp at h
    | none =>
      rw [hc] at h
      simp only [Prod.mk.injEq] at h
      obtain ⟨h1, h2⟩ := h
      rw [writeBytes_ok os _ h1] at h2
      subst h2
      refine ⟨fun he => absurd he ho, fun _ => ⟨rfl, by simp, fun path hp => by simp [hp]⟩⟩

theorem fileFormat_eq (B L : List Char) :
    fileFormat (B ++ "\n\tbuiltinFuncs = ".toList ++ L) =
      "// Code generated by _tools/gen_builtin.go; DO NOT EDIT.\n\npackage gojq\n\n".toList
        ++ "func init() \x7b".toList ++ B ++ "\n\tbuiltinFuncs = ".toList ++ L
        ++ "\x7d\n".toList := by
  have h : "// Code generated by _tools/gen_builtin.go; DO NOT EDIT.\n\npackage gojq\n\nfunc init() \x7b".toList
      = "// Code generated by _tools/gen_builtin.go; DO NOT EDIT.\n\npackage gojq\n\n".toList
        ++ "func init() \x7b".toList := by decide
  rw [fileFormat, h]
  simp only [List.append_assoc]

/-- C11 (generated output format): when `run` returns no error, the bytes written to the
destination (appended to standard output, or the contents of the created file) are exactly
the header comment, a blank line, `package gojq`, a blank line, `func init() {`, the text
`B` written by `printAssignStmtsFromFuncArgs`, newline, tab, `builtinFuncs = `, the text
`L` written by `printCompositeLit` for the literal that `getReturnStmtCompositeLit`
returned, and `}` with a newline; nothing else is written. -/
theorem run_output_format {Query : Type} (c : Collaborators Query) (os : OS)
    (defs : List (String × String)) (output : String) (w w' : World)
    (h : run c os defs output w = (.ret none, w')) :
    ∃ (qs : String → Option Query) (fn : Expr) (args : List Expr) (B : List Char)
      (m : CompositeLit) (L : List Char),
      loadDefinitions c.Parse defs (fun _ => none) = .ok qs ∧
      c.Build qs = .ok (.expr (.callExpr fn args)) ∧
      printAssignStmtsFromFuncArgs c.Fprint [] ⟨fn, args⟩ = .ret (B, none) ∧
      getReturnStmtCompositeLit ⟨fn, args⟩ = .ret (some m, none) ∧
      printCompositeLit c.Fprint c.operators [] m = (L, none) ∧
      (output = "" →
        w'.stdout = w.stdout ++
          ("// Code generated by _tools/gen_builtin.go; DO NOT EDIT.\n\npackage gojq\n\n".toList
            ++ "func init() \x7b".toList ++ B ++ "\n\tbuiltinFuncs = ".toList ++ L
            ++ "\x7d\n".toList) ∧
        w'.files = w.files) ∧
      (output ≠ "" →
        w'.stdout = w.stdout ∧
        w'.files output = some
          ("// Code generated by _tools/gen_builtin.go; DO NOT EDIT.\n\npackage gojq\n\n".toList
            ++ "func init() \x7b".toList ++ B ++ "\n\tbuiltinFuncs = ".toList ++ L
            ++ "\x7d\n".toList) ∧
        ∀ path, path ≠ output → w'.files path = w.files path) := by
  unfold run at h
  cases hl : loadDefinitions c.Parse defs (fun _ => none) with
  | error e => rw [hl] at h; simp at h
  | ok qs =>
    rw [hl] at h
    simp only at h
    cases hb : c.Build qs with
    | error e => rw [hb] at h; simp at h
    | ok t =>
      rw [hb] at h
      simp only at h
      split at h
      · rename_i fn args
        cases hp : printAssignStmtsFromFuncArgs c.Fprint [] ⟨fn, args⟩ with
        | panic p => rw [hp] at h; simp at h
        | ret r1 =>
          obtain ⟨B, e1⟩ := r1
          rw [hp] at h
          cases e1 with
          | some err => simp at h
          | none =>
            simp only at h
            cases hg : getReturnStmtCompositeLit ⟨fn, args⟩ with
            | panic p => rw [hg] at h; simp at h
            | ret r2 =>
              obtain ⟨m, e2⟩ := r2
              rw [hg] at h
              cases e2 with
              | some err => simp at h
              | none =>
                cases m with
                | none => simp at h
                | some m =>
                  simp only at h
                  rw [printCompositeLit_out] at h
                  cases hc : printCompositeLit c.Fprint c.operators [] m with
                  | mk L e3 =>
                    rw [hc] at h
                    cases e3 with
                    | some err => simp at h
                    | none =>
                      simp only [Prod.mk.injEq, Exec.ret.injEq] at h
                      have he : emit os output (B ++ "\n\tbuiltinFuncs = ".toList ++ L) w
                          = (none, w') := Prod.ext h.1 h.2
                      obtain ⟨h1, h2⟩ := emit_ok os output _ w w' he
                      rw [fileFormat_eq] at h1 h2
                      exact ⟨qs, fn, args, B, m, L, rfl, hb, hp, hg, hc, h1, h2⟩
      · simp at h

/-- C11 witness: the sample run to standard output writes the header, `a := x` and the
literal `M` with its one entry. -/
theorem run_output_format_witness :
    run demoCollaborators demoOS [("inc", "+1")] "" emptyWorld
      = (.ret none,
          ⟨("// Code generated by _tools/gen_builtin.go; DO NOT EDIT.\n\npackage gojq\n\n"
              ++ "func init() \x7b\n\ta := x\n\tbuiltinFuncs = "
              ++ "M\x7b\n\t\tOp: OpMul,\n\t\x7d\n\x7d\n").toList, fun _ => none⟩) ∧
    ∃ B L : List Char,
      ("// Code generated by _tools/gen_builtin.go; DO NOT EDIT.\n\npackage gojq\n\n"
          ++ "func init() \x7b\n\ta := x\n\tbuiltinFuncs = "
          ++ "M\x7b\n\t\tOp: OpMul,\n\t\x7d\n\x7d\n").toList
        = emptyWorld.stdout ++
          ("// Code generated by _tools/gen_builtin.go; DO NOT EDIT.\n\npackage gojq\n\n".toList
            ++ "func init() \x7b".toList ++ B ++ "\n\tbuiltinFuncs = ".toList ++ L
            ++ "\x7d\n".toList) := by
  refine ⟨rfl, ?_⟩
  obtain ⟨-, -, -, B, -, L, -, -, -, -, -, h1, -⟩ :=
    run_output_format demoCollaborators demoOS [("inc", "+1")] "" emptyWorld
      ⟨("// Code generated by _tools/gen_builtin.go; DO NOT EDIT.\n\npackage gojq\n\n"
          ++ "func init() \x7b\n\ta := x\n\tbuiltinFuncs = "
          ++ "M\x7b\n\t\tOp: OpMul,\n\t\x7d\n\x7d\n").toList, fun _ => none⟩ rfl
  exact ⟨B, L, (h1 rfl).1⟩

/-! ### The loader -/

/-- On a table without a repeated name, all of whose sources parse, the loader returns a
map that holds the parsed source under each name of the table and is unchanged elsewhere. -/
theorem loadDefinitions_ok {Query : Type} (Parse : String → Except GoError Query) :
    ∀ (defs : List (String × String)) (qs0 : String → Option Query),
      (defs.map Prod.fst).Nodup → (∀ p ∈ defs, ∃ q, Parse p.2 = .ok q) →
      ∃ qs, loadDefinitions Parse defs qs0 = .ok qs ∧
        (∀ name src, (name, src) ∈ defs → ∃ q, Parse src = .ok q ∧ qs name = some q) ∧
        (∀ name, name ∉ defs.map Prod.fst → qs name = qs0 name) := by
  intro defs
  induction defs with
  | nil => intro qs0 _ _; exact ⟨qs0, rfl, by simp, fun _ _ => rfl⟩
  | cons d defs ih =>
    intro qs0 hnd hp
    obtain ⟨n, src⟩ := d
    simp only [List.map_cons, List.nodup_cons] at hnd
    obtain ⟨q, hq⟩ := hp (n, src) (by simp)
    obtain ⟨qs, h1, h2, h3⟩ := ih (fun k => if k = n then some q else qs0 k) hnd.2
      (fun p hp' => hp p (List.mem_cons_of_mem _ hp'))
    refine ⟨qs, by rw [loadDefinitions, hq]; exact h1, ?_, ?_⟩
    · intro name s hmem
      rcases List.mem_cons.1 hmem with heq | hmem
      · simp only [Prod.mk.injEq] at heq
        obtain ⟨rfl, rfl⟩ := heq
        exact ⟨q, hq, by rw [h3 name hnd.1]; simp⟩
      · exact h2 name s hmem
    · intro name hname
      simp only [List.map_cons, List.mem_cons, not_or] at hname
      rw [h3 name hname.2]
      simp [hname.1]

/-- In a table without a repeated name a name has one source. -/
theorem source_unique : ∀ (defs : List (String × String)), (defs.map Prod.fst).Nodup →
    ∀ name src src', (name, src) ∈ defs → (name, src') ∈ defs → src = src' := by
  intro defs
  induction defs with
  | nil => intro _ name src src' h; exact absurd h (List.not_mem_nil _)
  | cons d defs ih =>
    intro hnd name src src' h h'
    simp only [List.map_cons, List.nodup_cons] at hnd
    have hmem : ∀ s, (name, s) ∈ defs → name ∈ defs.map Prod.fst :=
      fun s hs => List.mem_map.2 ⟨(name, s), hs, rfl⟩
    rcases List.mem_cons.1 h with h1 | h1
    · rcases List.mem_cons.1 h' with h2 | h2
      · exact (Prod.mk.inj (h1.trans h2.symm)).2
      · rw [← h1] at hnd
        exact absurd (hmem _ h2) hnd.1
    · rcases List.mem_cons.1 h' with h2 | h2
      · rw [← h2] at hnd
        exact absurd (hmem _ h1) hnd.1
      · exact ih hnd.2 name src src' h1 h2

/-- The outcome of `run` depends on the builder only through its result on the map `qs`
that the loader returns. -/
theorem run_congr_build {Query : Type} (c c' : Collaborators Query) (os : OS)
    (defs : List (String × String)) (output : String) (w : World) (qs : String → Option Query)
    (hl : loadDefinitions c.Parse defs (fun _ => none) = .ok qs)
    (hParse : c'.Parse = c.Parse) (hFprint : c'.Fprint = c.Fprint)
    (hops : c'.operators = c.operators) (hBuild : c'.Build qs = c.Build qs) :
    run c' os defs output w = run c os defs output w := by
  unfold run
  rw [hParse, hl, hFprint, hops]
  simp only [hBuild]

/-- C12 (Definition Loader key set): on a table of definitions (no name twice, as in a Go
map) all of whose sources the parser accepts, the loader returns a map `qs` whose keys are
exactly the names of the table and which holds under each name the parser's result for
that name's source; `qs` is what `run` hands to the builder, the outcome of `run`
depending on the builder only through its result on `qs`. -/
theorem loadDefinitions_key_set {Query : Type} (c : Collaborators Query) (os : OS)
    (defs : List (String × String)) (output : String) (w : World)
    (hnodup : (defs.map Prod.fst).Nodup) (hparse : ∀ p ∈ defs, ∃ q, c.Parse p.2 = .ok q) :
    ∃ qs : String → Option Query,
      loadDefinitions c.Parse defs (fun _ => none) = .ok qs ∧
      (∀ name, (qs name).isSome = true ↔ name ∈ defs.map Prod.fst) ∧
      (∀ name src, (name, src) ∈ defs → ∃ q, c.Parse src = .ok q ∧ qs name = some q) ∧
      (∀ c' : Collaborators Query, c'.Parse = c.Parse → c'.Fprint = c.Fprint →
        c'.operators = c.operators → c'.Build qs = c.Build qs →
        run c' os defs output w = run c os defs output w) := by
  obtain ⟨qs, h1, h2, h3⟩ := loadDefinitions_ok c.Parse defs (fun _ => none) hnodup hparse
  refine ⟨qs, h1, fun name => ⟨fun h => ?_, fun h => ?_⟩, h2,
    fun c' hP hF hO hB => run_congr_build c c' os defs output w qs h1 hP hF hO hB⟩
  · by_contra hn
    rw [h3 name hn] at h
    exact absurd h (by simp)
  · obtain ⟨p, hp, hname⟩ := List.mem_map.1 h
    obtain ⟨q, -, hq⟩ := h2 name p.2 (by rw [← hname]; exact hp)
    rw [hq]
    rfl

/-- C12 witness: the sample table `inc`, `dec`. -/
theorem loadDefinitions_key_set_witness :
    ([("inc", "+1"), ("dec", "-1")].map Prod.fst).Nodup ∧
    ∃ qs : String → Option String,
      loadDefinitions demoCollaborators.Parse [("inc", "+1"), ("dec", "-1")] (fun _ => none)
        = .ok qs ∧
      (∀ name, (qs name).isSome = true ↔ name ∈ ["inc", "dec"]) ∧
      qs "inc" = some "+1" ∧ qs "dec" = some "-1" := by
  refine ⟨by decide, ?_⟩
  obtain ⟨qs, h1, h2, h3, -⟩ :=
    loadDefinitions_key_set demoCollaborators demoOS [("inc", "+1"), ("dec", "-1")] ""
      emptyWorld (by decide)
      (by intro p hp
          simp only [List.mem_cons, List.mem_singleton, List.not_mem_nil, or_false] at hp
          rcases hp with rfl | rfl
          · exact ⟨"+1", rfl⟩
          · exact ⟨"-1", rfl⟩)
  refine ⟨qs, h1, h2, ?_, ?_⟩
  · obtain ⟨q, hq, hqs⟩ := h3 "inc" "+1" (by simp)
    rw [hqs, ← Except.ok.inj (hq.symm.trans (rfl : demoCollaborators.Parse "+1" = .ok "+1"))]
  · obtain ⟨q, hq, hqs⟩ := h3 "dec" "-1" (by simp)
    rw [hqs, ← Except.ok.inj (hq.symm.trans (rfl : demoCollaborators.Parse "-1" = .ok "-1"))]

/-- C13 (determinism): with the parser, the builder and the printer fixed functions, on a
table of definitions (no name twice) all of whose sources parse, the map of parsed
definitions and the whole outcome of `run`, the written bytes included, are the same for
every order in which the entries of the table are visited. -/
theorem run_deterministic {Query : Type} (c : Collaborators Query) (os : OS)
    (defs defs' : List (String × String)) (output : String) (w : World)
    (hperm : defs'.Perm defs) (hnodup : (defs.map Prod.fst).Nodup)
    (hparse : ∀ p ∈ defs, ∃ q, c.Parse p.2 = .ok q) :
    loadDefinitions c.Parse defs' (fun _ => none)
      = loadDefinitions c.Parse defs (fun _ => none) ∧
    run c os defs' output w = run c os defs output w := by
  have hnodup' : (defs'.map Prod.fst).Nodup := (hperm.map Prod.fst).nodup_iff.2 hnodup
  have hparse' : ∀ p ∈ defs', ∃ q, c.Parse p.2 = .ok q :=
    fun p hp => hparse p (hperm.mem_iff.1 hp)
  obtain ⟨qs, h1, h2, h3⟩ := loadDefinitions_ok c.Parse defs (fun _ => none) hnodup hparse
  obtain ⟨qs', h1', h2', h3'⟩ :=
    loadDefinitions_ok c.Parse defs' (fun _ => none) hnodup' hparse'
  have heq : qs' = qs := by
    funext name
    by_cases hn : name ∈ defs.map Prod.fst
    · obtain ⟨p, hp, hname⟩ := List.mem_map.1 hn
      have hmem : (name, p.2) ∈ defs := by rw [← hname]; exact hp
      obtain ⟨q, hq, hqs⟩ := h2 name p.2 hmem
      obtain ⟨q', hq', hqs'⟩ := h2' name p.2 (hperm.mem_iff.2 hmem)
      rw [hqs, hqs', Except.ok.inj (hq'.symm.trans hq)]
    · have hn' : name ∉ defs'.map Prod.fst :=
        fun h => hn ((hperm.map Prod.fst).mem_iff.1 h)
      rw [h3 name hn, h3' name hn']
  have hload : loadDefinitions c.Parse defs' (fun _ => none)
      = loadDefinitions c.Parse defs (fun _ => none) := by rw [h1, h1', heq]
  refine ⟨hload, ?_⟩
  unfold run
  rw [hload]

/-- C13 witness: the sample table visited in its two orders. -/
theorem run_deterministic_witness :
    [("dec", "-1"), ("inc", "+1")].Perm [("inc", "+1"), ("dec", "-1")] ∧
    run demoCollaborators demoOS [("dec", "-1"), ("inc", "+1")] "builtin.go" emptyWorld
      = run demoCollaborators demoOS [("inc", "+1"), ("dec", "-1")] "builtin.go" emptyWorld :=
  ⟨List.Perm.swap _ _ _,
   (run_deterministic demoCollaborators demoOS [("inc", "+1"), ("dec", "-1")]
      [("dec", "-1"), ("inc", "+1")] "builtin.go" emptyWorld (List.Perm.swap _ _ _)
      (by decide)
      (by intro p hp
          simp only [List.mem_cons, List.mem_singleton, List.not_mem_nil, or_false] at hp
          rcases hp with rfl | rfl
          · exact ⟨"+1", rfl⟩
          · exact ⟨"-1", rfl⟩)).2⟩

/-! ### The order of the passes -/

/-- The single scan depends on the ordinals it handles, not on their order. -/
theorem symbolScan_congr (ops : Operators) (ns ns' : List Nat) (hmem : ∀ n, n ∈ ns ↔ n ∈ ns') :
    ∀ (len : Nat) (s : List Char) (pw : Bool), s.length ≤ len →
      symbolScan ops ns 0 pw s = symbolScan ops ns' 0 pw s := by
  intro len
  induction len with
  | zero =>
    intro s pw h
    have : s = [] := List.length_eq_zero.1 (Nat.le_zero.1 h)
    subst this
    rfl
  | succ len ih =>
    intro s pw hlen
    cases s with
    | nil => rfl
    | cons c cs =>
      rcases occurs_or_none ns pw (c :: cs) with ⟨n, hn, rest, ho⟩ | hnone
      · have hl := ho.length_lt
        rw [symbolScan_occurs ops ns n pw _ rest hn ho,
          symbolScan_occurs ops ns' n pw _ rest ((hmem n).1 hn) ho, ih rest true (by omega)]
      · have hnone' : ∀ n ∈ ns', matchLit (opPattern n) pw (c :: cs) = false :=
          fun n hn => hnone n ((hmem n).2 hn)
        rw [symbolScan_copy _ _ _ _ _ hnone, symbolScan_copy _ _ _ _ _ hnone',
          ih cs _ (by simpa using hlen)]

/-- A word-bounded `Op: k` holds no bare ordinal other than `k`. -/
theorem hasBareOrdinal_other (ns : List Nat) (k : Nat) (pw : Bool) (s rest : List Char)
    (hk : ∀ n ∈ ns, n ≠ k) (ho : OccursAt k pw s rest) :
    hasBareOrdinal ns pw s = hasBareOrdinal ns true rest := by
  have hs : s = 'O' :: (('p' :: ':' :: ' ' :: decimal k) ++ rest) := ho.2.1
  have hnone : ∀ n ∈ ns, matchLit (opPattern n) pw s = false := by
    intro n hn
    cases h : matchLit (opPattern n) pw s with
    | false => rfl
    | true =>
      obtain ⟨r, hr⟩ := (matchLit_opPattern n pw s).1 h
      exact absurd (hr.unique ho).1 (hk n hn)
  rw [hs] at hnone ⊢
  rw [hasBareOrdinal_copy _ _ _ _ hnone, hasBareOrdinal_no_O ns _ _ _ (O_not_mem_tail k)]
  have hl := lastIsWord_opPattern false k
  rw [opPattern_cons, lastIsWord] at hl
  rw [hl]

/-- The scan destroys no match: `Op: n` at a character followed by the rest still matches
when the rest is scanned. -/
theorem matchLit_symbolScan_of_matchLit (ops : Operators) (ns : List Nat) (n : Nat) (pw : Bool)
    (c : Char) (cs : List Char) (h : matchLit (opPattern n) pw (c :: cs) = true) :
    matchLit (opPattern n) pw (c :: symbolScan ops ns 0 (isWordChar c) cs) = true := by
  obtain ⟨rest, hpw, hs, hr⟩ := (matchLit_opPattern n pw _).1 h
  rw [opPattern_cons, List.cons_append] at hs
  obtain ⟨hc, hcs⟩ := List.cons.inj hs
  refine (matchLit_opPattern n pw _).2
    ⟨symbolScan ops ns 0 true rest, hpw, ?_, headIsWord_symbolScan ops ns true rest hr⟩
  rw [hcs, symbolScan_no_O ops ns _ _ _ (O_not_mem_tail n), hc]
  have hl := lastIsWord_opPattern false n
  rw [opPattern_cons, lastIsWord] at hl
  rw [hl]
  rfl

/-- The pass for `k` neither creates nor destroys a bare ordinal `n` other than `k`. -/
theorem hasBareOrdinal_symbolScan_other (ops : Operators) (k n : Nat) (hnk : n ≠ k)
    (hsym : isSymbolicName (ops.GoString k) = true) :
    ∀ (len : Nat) (s : List Char) (pw : Bool), s.length ≤ len →
      hasBareOrdinal [n] pw (symbolScan ops [k] 0 pw s) = hasBareOrdinal [n] pw s := by
  intro len
  induction len with
  | zero =>
    intro s pw h
    have : s = [] := List.length_eq_zero.1 (Nat.le_zero.1 h)
    subst this
    rfl
  | succ len ih =>
    intro s pw hlen
    cases s with
    | nil => rfl
    | cons c cs =>
      rcases occurs_or_none [k] pw (c :: cs) with ⟨k', hk', rest, ho⟩ | hnone
      · obtain rfl : k' = k := by simpa using hk'
        have hl := ho.length_lt
        rw [symbolScan_occurs ops [k'] k' pw _ rest (by simp) ho,
          hasBareOrdinal_replacement ops [n] k' pw _ hsym
            (headIsWord_symbolScan ops [k'] true rest ho.2.2),
          ih rest true (by omega),
          hasBareOrdinal_other [n] k' pw _ rest (by simpa using hnk) ho]
      · rw [symbolScan_copy _ _ _ _ _ hnone, hasBareOrdinal, hasBareOrdinal,
          ih cs _ (by simpa using hlen)]
        congr 1
        simp only [List.any_cons, List.any_nil, Bool.or_false]
        cases hm : matchLit (opPattern n) pw (c :: cs) with
        | true => exact matchLit_symbolScan_of_matchLit ops [k] n pw c cs hm
        | false =>
          cases hm' : matchLit (opPattern n) pw (c :: symbolScan ops [k] 0 (isWordChar c) cs) with
          | false => rfl
          | true =>
            rw [matchLit_of_symbolScan ops [k] n pw c cs hm'] at hm
            exact absurd hm (by decide)

/-- C15 (order-independence of the passes): when the operator names of the range are
symbolic names, the passes for the ordinals of the range applied in any order give the
text the loop gives in ascending order; applying the loop to its own output changes
nothing; and the pass for `k` keeps a word-bounded `Op: n`, `n` other than `k`, where it
is, and leaves the text with a bare ordinal `n` exactly when it had one. -/
theorem symbolize_order_independent (ops : Operators) (order : List Nat) (s : List Char)
    (k n : Nat) (pre post : List Char)
    (hsym : ∀ m, ops.OpAdd ≤ m → m ≤ ops.OpAlt → isSymbolicName (ops.GoString m) = true) :
    (order.Perm (opRange ops) → order.foldl (symbolizeStep ops) s = symbolize ops s) ∧
    symbolize ops (symbolize ops s) = symbolize ops s ∧
    (n ≠ k → lastIsWord false pre = false → headIsWord post = false →
      symbolizeStep ops (pre ++ opPattern n ++ post) k =
        symbolizeStep ops pre k ++ opPattern n ++ symbolizeStep ops post k) ∧
    (n ≠ k → ops.OpAdd ≤ k → k ≤ ops.OpAlt →
      hasBareOrdinal [n] false (symbolizeStep ops s k) = hasBareOrdinal [n] false s) := by
  have hsym' : ∀ m ∈ opRange ops, isSymbolicName (ops.GoString m) = true :=
    fun m hm => hsym m ((mem_opRange ops m).1 hm).1 ((mem_opRange ops m).1 hm).2
  refine ⟨fun hperm => ?_, ?_, fun hnk hpre hpost => ?_, fun hnk h1 h2 => ?_⟩
  · rw [foldl_symbolizeStep ops order (fun m hm => hsym' m (hperm.mem_iff.1 hm)) s,
      symbolize_eq_symbolScan ops hsym' s]
    exact symbolScan_congr ops _ _ (fun m => hperm.mem_iff) _ s false (Nat.le_refl _)
  · have hb := hasBareOrdinal_symbolScan ops (opRange ops) hsym' _ s false (Nat.le_refl _)
    rw [← symbolize_eq_symbolScan ops hsym'] at hb
    exact foldl_symbolizeStep_of_no_bare ops (opRange ops) _ hb _ (fun _ hm => hm)
  · have hne : ∀ m ∈ [k], m ≠ n := by
      intro m hm
      obtain rfl : m = k := by simpa using hm
      exact Ne.symm hnk
    rw [symbolizeStep_eq_symbolScan, symbolizeStep_eq_symbolScan, symbolizeStep_eq_symbolScan,
      List.append_assoc, symbolScan_append_occurrence ops [k] n post _ pre false
        (Nat.le_refl _) hpre,
      symbolScan_other ops [k] n false _ post hne ⟨rfl, rfl, hpost⟩,
      symbolScan_prev_irrelevant ops [k] true false post hpost, List.append_assoc]
  · rw [symbolizeStep_eq_symbolScan]
    exact hasBareOrdinal_symbolScan_other ops k n hnk (hsym k h1 h2) _ s false (Nat.le_refl _)

/-- C15 witness: the sample passes in descending order, and the loop applied twice. -/
theorem symbolize_order_independent_witness :
    (opRange demoOperators).reverse.foldl (symbolizeStep demoOperators)
        "Op: 1, Op: 12, Op: 2".toList
      = "Op: OpAdd, Op: OpAnd, Op: OpSub".toList ∧
    symbolize demoOperators (symbolize demoOperators "Op: 1, Op: 12, Op: 2".toList)
      = "Op: OpAdd, Op: OpAnd, Op: OpSub".toList ∧
    symbolizeStep demoOperators "Op: 1, Op: 12, Op: 2".toList 1
      = "Op: OpAdd, Op: 12, Op: 2".toList ∧
    hasBareOrdinal [12] false (symbolizeStep demoOperators "Op: 1, Op: 12, Op: 2".toList 1)
      = true :=
  ⟨((symbolize_order_independent demoOperators (opRange demoOperators).reverse
      "Op: 1, Op: 12, Op: 2".toList 1 12 "Op: 1, ".toList ", Op: 2".toList
      demoOperators_symbolic).1 (List.reverse_perm _)).trans rfl,
   ((symbolize_order_independent demoOperators (opRange demoOperators).reverse
      "Op: 1, Op: 12, Op: 2".toList 1 12 "Op: 1, ".toList ", Op: 2".toList
      demoOperators_symbolic).2.1).trans rfl,
   ((symbolize_order_independent demoOperators (opRange demoOperators).reverse
      "Op: 1, Op: 12, Op: 2".toList 1 12 "Op: 1, ".toList ", Op: 2".toList
      demoOperators_symbolic).2.2.1 (by decide) rfl rfl).trans rfl,
   ((symbolize_order_independent demoOperators (opRange demoOperators).reverse
      "Op: 1, Op: 12, Op: 2".toList 1 12 "Op: 1, ".toList ", Op: 2".toList
      demoOperators_symbolic).2.2.2 (by decide) (by decide) (by decide)).trans rfl⟩

/-! ### The round trip -/

theorem lastIsWord_opReplacement (ops : Operators) (n : Nat) (pw : Bool)
    (hsym : isSymbolicName (ops.GoString n) = true) :
    lastIsWord pw (opReplacement ops n) = true := by
  obtain ⟨hne, hword, -, -⟩ := isSymbolicName_spec hsym
  rw [opReplacement, lastIsWord_append]
  exact lastIsWord_of_word _ _ hne hword

theorem matchLit_opReplacement (ops : Operators) (n : Nat) (pw : Bool) (s : List Char)
    (hsym : isSymbolicName (ops.GoString n) = true) :
    matchLit (opReplacement ops n) pw s = true ↔
      pw = false ∧ ∃ rest, s = opReplacement ops n ++ rest ∧ headIsWord rest = false := by
  constructor
  · intro h
    simp only [matchLit, Bool.and_eq_true] at h
    obtain ⟨h1, h2⟩ := h
    cases hs : stripLit (opReplacement ops n) s with
    | none => simp [hs] at h2
    | some rest =>
      rw [hs] at h2
      simp only [lastIsWord_opReplacement ops n pw hsym, wordBoundary] at h2
      have hs2 := (stripLit_eq_some _ _ _).1 hs
      refine ⟨?_, rest, hs2, by simpa using h2⟩
      rw [hs2, opReplacement_cons] at h1
      simpa [wordBoundary, headIsWord, isWordChar] using h1
  · rintro ⟨hpw, rest, hs, hr⟩
    have hs2 := (stripLit_eq_some _ _ _).2 hs
    have hh : headIsWord s = true := by rw [hs, opReplacement_cons]; rfl
    simp [matchLit, hs2, lastIsWord_opReplacement ops n false hsym, wordBoundary, hr, hpw, hh]

/-- A symbolic name before a word boundary is not the start of the text `Op: `. -/
theorem name_not_op_text (w X z : List Char) (hsym : isSymbolicName w = true)
    (hX : headIsWord X = false) : w ++ X ≠ 'O' :: 'p' :: ':' :: ' ' :: z := by
  intro hs
  obtain ⟨hne, hword, -, hOp⟩ := isSymbolicName_spec hsym
  rcases w with _ | ⟨c0, _ | ⟨c1, _ | ⟨c2, w⟩⟩⟩
  · exact hne rfl
  · simp only [List.cons_append, List.nil_append, List.cons.injEq] at hs
    rw [hs.2] at hX
    simp [headIsWord, isWordChar] at hX
  · simp only [List.cons_append, List.nil_append, List.cons.injEq] at hs
    exact hOp (by rw [hs.1, hs.2.1])
  · simp only [List.cons_append, List.cons.injEq] at hs
    have := hword c2 (by simp)
    rw [hs.2.2.1] at this
    exact absurd this (by decide)

theorem unsymbolScan_nil (ops : Operators) (ns : List Nat) (k : Nat) (pw : Bool) :
    unsymbolScan ops ns k pw [] = [] := by
  cases k <;> rfl

theorem unsymbolScan_skip (ops : Operators) (ns : List Nat) :
    ∀ (s : List Char) (k : Nat) (pw : Bool),
      unsymbolScan ops ns k pw s =
        unsymbolScan ops ns 0 (lastIsWord pw (s.take k)) (s.drop k) := by
  intro s
  induction s with
  | nil => intro k pw; simp [unsymbolScan_nil]
  | cons c cs ih =>
    intro k pw
    cases k with
    | zero => rfl
    | succ k =>
      rw [unsymbolScan, ih k]
      rfl

theorem unsymbolScan_copy (ops : Operators) (ns : List Nat) (pw : Bool) (c : Char)
    (cs : List Char) (h : ∀ n ∈ ns, matchLit (opReplacement ops n) pw (c :: cs) = false) :
    unsymbolScan ops ns 0 pw (c :: cs) = c :: unsymbolScan ops ns 0 (isWordChar c) cs := by
  have hf : ns.find? (fun n => matchLit (opReplacement ops n) pw (c :: cs)) = none :=
    List.find?_eq_none.2 (fun n hn => by simp [h n hn])
  rw [unsymbolScan, hf]

/-- Where the word-bounded `Op: name` of an ordinal `n` of `ns` starts, the scan back writes
`Op: n`, the names of `ns` being symbolic names of their own. -/
theorem unsymbolScan_name (ops : Operators) (ns : List Nat) (n : Nat) (pw : Bool)
    (rest : List Char) (hsym : ∀ m ∈ ns, isSymbolicName (ops.GoString m) = true)
    (hinj : ∀ m ∈ ns, ∀ m' ∈ ns, ops.GoString m = ops.GoString m' → m = m')
    (hn : n ∈ ns) (hpw : pw = false) (hrest : headIsWord rest = false) :
    unsymbolScan ops ns 0 pw (opReplacement ops n ++ rest) =
      opPattern n ++ unsymbolScan ops ns 0 true rest := by
  have hs : opReplacement ops n ++ rest
      = 'O' :: (('p' :: ':' :: ' ' :: ops.GoString n) ++ rest) := rfl
  have hmatch : matchLit (opReplacement ops n) pw (opReplacement ops n ++ rest) = true :=
    (matchLit_opReplacement ops n pw _ (hsym n hn)).2 ⟨hpw, rest, rfl, hrest⟩
  cases hf : ns.find? (fun m => matchLit (opReplacement ops m) pw
      (opReplacement ops n ++ rest)) with
  | none =>
    have := List.find?_eq_none.1 hf n hn
    exact absurd hmatch (by simpa using this)
  | some m =>
    have hm := List.find?_some hf
    have hmem := List.mem_of_find?_eq_some hf
    simp only at hm
    obtain ⟨-, r', hr', hr'2⟩ := (matchLit_opReplacement ops m pw _ (hsym m hmem)).1 hm
    have hmn : m = n := by
      simp only [opReplacement, List.append_assoc, List.append_cancel_left_eq] at hr'
      obtain ⟨h1, -⟩ := wordRun_unique _ _ _ _ (isSymbolicName_spec (hsym n hn)).2.1
        (isSymbolicName_spec (hsym m hmem)).2.1 hrest hr'2 hr'
      exact hinj m hmem n hn h1.symm
    subst hmn
    rw [hs] at hf ⊢
    rw [unsymbolScan, hf]
    dsimp only
    rw [unsymbolScan_skip ops ns _ ((opReplacement ops m).length - 1)]
    have hlen : (opReplacement ops m).length - 1
        = ('p' :: ':' :: ' ' :: ops.GoString m).length := by
      simp [opReplacement_cons]
    rw [hlen, List.take_left', List.drop_left']
    · have hl := lastIsWord_opReplacement ops m pw (hsym m hmem)
      rw [opReplacement_cons, lastIsWord] at hl
      rw [hl]
    · rfl
    · rfl

/-- From a scanned text that starts, after a word character, with a run of word
characters, the text itself starts with that run. -/
theorem symbolScan_inv_wordRun (ops : Operators) (ns : List Nat) :
    ∀ (w ds X : List Char), (∀ c ∈ w, isWordChar c = true) →
      symbolScan ops ns 0 true ds = w ++ X →
      ∃ t, ds = w ++ t ∧ X = symbolScan ops ns 0 true t := by
  intro w
  induction w with
  | nil => intro ds X _ h; exact ⟨ds, rfl, h.symm⟩
  | cons e w ih =>
    intro ds X hw h
    cases ds with
    | nil => rw [symbolScan_nil] at h; exact absurd h (by simp)
    | cons d ds =>
      rw [symbolScan_copy _ _ _ _ _ (fun n _ => matchLit_prev_word n _)] at h
      obtain ⟨h1, h2⟩ := List.cons.inj h
      rw [h1, hw e (by simp)] at h2
      obtain ⟨t, ht, hX⟩ := ih ds X (fun x hx => hw x (List.mem_cons_of_mem _ hx)) h2
      exact ⟨t, by rw [h1, ht]; rfl, hX⟩

/-- From a scanned text that starts, after a non-word character, with a symbolic name
before a word boundary, the text itself starts with that name. -/
theorem symbolScan_inv_name (ops : Operators) (ns : List Nat) (w t X : List Char)
    (hsym : isSymbolicName w = true) (hX : headIsWord X = false)
    (h : symbolScan ops ns 0 false t = w ++ X) :
    ∃ t', t = w ++ t' ∧ X = symbolScan ops ns 0 true t' := by
  obtain ⟨hne, hword, -, -⟩ := isSymbolicName_spec hsym
  cases t with
  | nil =>
    rw [symbolScan_nil] at h
    exact absurd (List.append_eq_nil.1 h.symm).1 hne
  | cons d ds =>
    rcases occurs_or_none ns false (d :: ds) with ⟨n, hn, rest, ho⟩ | hnone
    · rw [symbolScan_occurs ops ns n false _ rest hn ho] at h
      exact absurd h.symm (name_not_op_text w X _ hsym hX)
    · rw [symbolScan_copy _ _ _ _ _ hnone] at h
      cases w with
      | nil => exact absurd rfl hne
      | cons c0 w' =>
        obtain ⟨h1, h2⟩ := List.cons.inj h
        rw [h1, hword c0 (by simp)] at h2
        obtain ⟨t', ht', hX'⟩ := symbolScan_inv_wordRun ops ns w' ds X
          (fun x hx => hword x (List.mem_cons_of_mem _ hx)) h2
        exact ⟨t', by rw [h1, ht']; rfl, hX'⟩

/-- The scan creates no symbolic name: if `Op: name` matches at a character followed by the
scanned rest, it matches at that character followed by the rest itself. -/
theorem matchLit_name_of_symbolScan (ops : Operators) (ns : List Nat) (m : Nat) (pw : Bool)
    (c : Char) (cs : List Char) (hsym : isSymbolicName (ops.GoString m) = true)
    (h : matchLit (opReplacement ops m) pw
      (c :: symbolScan ops ns 0 (isWordChar c) cs) = true) :
    matchLit (opReplacement ops m) pw (c :: cs) = true := by
  obtain ⟨hpw, X, hs, hX⟩ := (matchLit_opReplacement ops m pw _ hsym).1 h
  have hs' : c :: symbolScan ops ns 0 (isWordChar c) cs
      = 'O' :: (['p', ':', ' '] ++ (ops.GoString m ++ X)) := hs
  obtain ⟨hc, hs2⟩ := List.cons.inj hs'
  obtain ⟨t, ht, hrest⟩ := symbolScan_inv ops ns _ cs _ _ (by decide) hs2
  rw [hc] at hrest
  have h4 : lastIsWord (isWordChar 'O') ['p', ':', ' '] = false := by decide
  rw [h4] at hrest
  obtain ⟨t', ht', hX'⟩ := symbolScan_inv_name ops ns _ t X hsym hX hrest.symm
  refine (matchLit_opReplacement ops m pw _ hsym).2 ⟨hpw, t', ?_, ?_⟩
  · rw [hc, ht, ht']; rfl
  · rw [hX'] at hX
    exact headIsWord_of_symbolScan ops ns _ t' hX

theorem hasSymbolicName_cons (ops : Operators) (ns : List Nat) (pw : Bool) (c : Char)
    (cs : List Char) (h : hasSymbolicName ops ns pw (c :: cs) = false) :
    (∀ n ∈ ns, matchLit (opReplacement ops n) pw (c :: cs) = false) ∧
      hasSymbolicName ops ns (isWordChar c) cs = false := by
  rw [hasSymbolicName, Bool.or_eq_false_iff, List.any_eq_false] at h
  exact ⟨fun n hn => by simpa using h.1 n hn, h.2⟩

theorem hasSymbolicName_append (ops : Operators) (ns : List Nat) :
    ∀ (u rest : List Char) (pw : Bool), hasSymbolicName ops ns pw (u ++ rest) = false →
      hasSymbolicName ops ns (lastIsWord pw u) rest = false := by
  intro u
  induction u with
  | nil => intro rest pw h; exact h
  | cons c u ih =>
    intro rest pw h
    exact ih rest _ (hasSymbolicName_cons ops ns pw c _ h).2

/-- Scanning back the scanned text gives the text, when the text holds no symbolic name
after `Op: ` and the names of `ns` are symbolic names of their own. -/
theorem unsymbolScan_symbolScan (ops : Operators) (ns : List Nat)
    (hsym : ∀ m ∈ ns, isSymbolicName (ops.GoString m) = true)
    (hinj : ∀ m ∈ ns, ∀ m' ∈ ns, ops.GoString m = ops.GoString m' → m = m') :
    ∀ (len : Nat) (s : List Char) (pw : Bool), s.length ≤ len →
      hasSymbolicName ops ns pw s = false →
      unsymbolScan ops ns 0 pw (symbolScan ops ns 0 pw s) = s := by
  intro len
  induction len with
  | zero =>
    intro s pw h _
    have : s = [] := List.length_eq_zero.1 (Nat.le_zero.1 h)
    subst this
    rfl
  | succ len ih =>
    intro s pw hlen hfree
    cases s with
    | nil => rfl
    | cons c cs =>
      rcases occurs_or_none ns pw (c :: cs) with ⟨n, hn, rest, ho⟩ | hnone
      · have hl := ho.length_lt
        have hfree' : hasSymbolicName ops ns true rest = false := by
          have := hasSymbolicName_append ops ns (opPattern n) rest pw (by rw [← ho.2.1]; exact hfree)
          rwa [lastIsWord_opPattern] at this
        rw [symbolScan_occurs ops ns n pw _ rest hn ho,
          unsymbolScan_name ops ns n pw _ hsym hinj hn ho.1
            (headIsWord_symbolScan ops ns true rest ho.2.2),
          ih rest true (by omega) hfree', ho.2.1]
      · obtain ⟨h1, h2⟩ := hasSymbolicName_cons ops ns pw c cs hfree
        have h3 : ∀ m ∈ ns, matchLit (opReplacement ops m) pw
            (c :: symbolScan ops ns 0 (isWordChar c) cs) = false := by
          intro m hm
          cases h : matchLit (opReplacement ops m) pw
              (c :: symbolScan ops ns 0 (isWordChar c) cs) with
          | false => rfl
          | true =>
            have := h1 m hm
            rw [matchLit_name_of_symbolScan ops ns m pw c cs (hsym m hm) h] at this
            exact absurd this (by decide)
        rw [symbolScan_copy _ _ _ _ _ hnone, unsymbolScan_copy _ _ _ _ _ h3,
          ih cs _ (by simpa using hlen) h2]

theorem demoOperators_injective (m m' : Nat) (h1 : demoOperators.OpAdd ≤ m)
    (h2 : m ≤ demoOperators.OpAlt) (h3 : demoOperators.OpAdd ≤ m')
    (h4 : m' ≤ demoOperators.OpAlt)
    (h : demoOperators.GoString m = demoOperators.GoString m') : m = m' := by
  have a1 : 1 ≤ m := h1
  have a2 : m ≤ 14 := h2
  have a3 : 1 ≤ m' := h3
  have a4 : m' ≤ 14 := h4
  interval_cases m <;> interval_cases m' <;> first | rfl | exact absurd h (by decide)

/-- C14 (symbolization preserves the value): when the operator names of the range are
symbolic names, different for different ordinals, and the rendered text holds no symbolic
name of the range after `Op: `, replacing in the symbolized text each `Op: ` followed by
the symbolic form of an ordinal `n` of the range by `Op: n` gives back the rendered text;
the symbolized text is the rendered text with some occurrences of `Op: n`, `n` in the
range, spelled `Op: ` and the symbolic form of `n`, all else unchanged. -/
theorem symbolize_round_trip (ops : Operators) (s : List Char)
    (hsym : ∀ m, ops.OpAdd ≤ m → m ≤ ops.OpAlt → isSymbolicName (ops.GoString m) = true)
    (hinj : ∀ m m', ops.OpAdd ≤ m → m ≤ ops.OpAlt → ops.OpAdd ≤ m' → m' ≤ ops.OpAlt →
      ops.GoString m = ops.GoString m' → m = m')
    (hfree : hasSymbolicName ops (opRange ops) false s = false) :
    unsymbolize ops (symbolize ops s) = s ∧
    ∃ (segs : List (List Char × Nat)) (closing : List Char),
      s = joinSegments decimal segs closing ∧
      symbolize ops s = joinSegments ops.GoString segs closing ∧
      ∀ n ∈ segs.map Prod.snd, ops.OpAdd ≤ n ∧ n ≤ ops.OpAlt := by
  have hsym' : ∀ m ∈ opRange ops, isSymbolicName (ops.GoString m) = true :=
    fun m hm => hsym m ((mem_opRange ops m).1 hm).1 ((mem_opRange ops m).1 hm).2
  have hinj' : ∀ m ∈ opRange ops, ∀ m' ∈ opRange ops,
      ops.GoString m = ops.GoString m' → m = m' :=
    fun m hm m' hm' => hinj m m' ((mem_opRange ops m).1 hm).1 ((mem_opRange ops m).1 hm).2
      ((mem_opRange ops m').1 hm').1 ((mem_opRange ops m').1 hm').2
  constructor
  · rw [unsymbolize, symbolize_eq_symbolScan ops hsym']
    exact unsymbolScan_symbolScan ops (opRange ops) hsym' hinj' _ s false (Nat.le_refl _) hfree
  · obtain ⟨segs, closing, h1, h2, h3⟩ :=
      symbolScan_segments ops (opRange ops) _ s false (Nat.le_refl _)
    exact ⟨segs, closing, h1, by rw [symbolize_eq_symbolScan ops hsym', h2],
      fun n hn => (mem_opRange ops n).1 (h3 n hn)⟩

/-- C14 witness: the entry rendered `X: &T{Op: 3, N: 3, Op: 12}` is emitted with `OpMul`
and `OpAnd`, and the way back gives the rendering. -/
theorem symbolize_round_trip_witness :
    hasSymbolicName demoOperators (opRange demoOperators) false
        "X: &T\x7bOp: 3, N: 3, Op: 12\x7d".toList = false ∧
    symbolize demoOperators "X: &T\x7bOp: 3, N: 3, Op: 12\x7d".toList
      = "X: &T\x7bOp: OpMul, N: 3, Op: OpAnd\x7d".toList ∧
    unsymbolize demoOperators "X: &T\x7bOp: OpMul, N: 3, Op: OpAnd\x7d".toList
      = "X: &T\x7bOp: 3, N: 3, Op: 12\x7d".toList := by
  have h := (symbolize_round_trip demoOperators "X: &T\x7bOp: 3, N: 3, Op: 12\x7d".toList
    demoOperators_symbolic demoOperators_injective (by decide)).1
  exact ⟨by decide, by decide, h⟩

end GenBuiltin
